import Mathlib

/-!
Verification of the Graph-Web-Agent core against its specification.

Shallow embedding of the Python sources:
  src/graph_executor/dual_verifier.py  (DualVerifier)
  src/router/router.py                 (CostAwareRouter)
  src/local_repair/rollback.py         (RollbackManager)
  src/local_repair/repair.py           (LocalRepairEngine)
  src/task_compiler/validator.py       (GraphValidator.get_topological_order)
  src/graph_executor/executor.py       (GraphExecutor.execute, bookkeeping skeleton)
  scripts/run_experiment.py            (ExperimentRunner._attempt_repair, control flow)

Python floats are modelled as rationals (ℚ); dicts used as records become
structures; dicts used as counters become total functions with default 0,
which is observationally equivalent to `dict.get(k, 0)` access.
-/

namespace GWA

/-! ## String helpers (Python `str.lower`, `in`, `split`) -/

/-- Python `needle in hay` on strings: contiguous-substring test on the
character lists. The empty needle is a substring of everything. -/
def charsInfix (needle hay : List Char) : Bool :=
  (needle.isPrefixOf hay) || (match hay with
    | [] => false
    | _ :: t => charsInfix needle t)

/-- Python `s.lower()`; `Char.toLower` only affects ASCII letters, which
matches CPython on the ASCII/CJK strings this system manipulates. -/
def lowerChars (s : List Char) : List Char := s.map Char.toLower

/-- Python `str.split()` with no argument: split on whitespace runs,
dropping empty pieces.  `acc` is the current word, reversed. -/
def splitWsAux : List Char → List Char → List (List Char)
  | [], acc => if acc.isEmpty then [] else [acc.reverse]
  | c :: rest, acc =>
    if c.isWhitespace then
      if acc.isEmpty then splitWsAux rest [] else acc.reverse :: splitWsAux rest []
    else splitWsAux rest (c :: acc)

def splitWs (s : List Char) : List (List Char) := splitWsAux s []

/-! ## The predicate "constrained grammar" extractor

`dual_verifier.py` extracts URL / title assertions with

  re.findall(r"URL[包含|匹配|等于][\s]*[\"\x27]?([^\"\x27]+)[\"\x27]?", predicate)

(and the same with the literal `标题` for titles).  Note that
`[包含|匹配|等于]` is a character CLASS matching exactly one of the seven
characters 包 含 | 匹 配 等 于, not an alternation of the three verbs.
We embed exactly that regular expression: literal, one class character,
greedy whitespace, optional quote, a greedy nonempty run of non-quote
characters (captured), optional quote; `findall` scans left to right for
leftmost matches and resumes after each match. -/

def squote : Char := Char.ofNat 39

def isQuoteChar (c : Char) : Bool := c = '"' || c = squote

def classChars : List Char := ['包', '含', '|', '匹', '配', '等', '于']

/-- Try to match the assertion pattern at the head of `s`; on success
return the captured group and the remainder of the input after the match. -/
def matchAssertAt (lit : List Char) (s : List Char) : Option (List Char × List Char) :=
  if lit.isPrefixOf s then
    match s.drop lit.length with
    | [] => none
    | c :: s2 =>
      if classChars.contains c then
        let s3 := s2.dropWhile Char.isWhitespace
        -- `["\x27]?` is greedy: consume a quote if present; on failure of the
        -- rest, backtracking to the no-quote branch still faces a leading
        -- quote that `[^"\x27]+` cannot match, so the whole match fails.
        match s3 with
        | q :: s4 =>
          if isQuoteChar q then
            let cap := s4.takeWhile (fun c => !isQuoteChar c)
            if cap.isEmpty then none
            else
              let rest := s4.drop cap.length
              some (cap, match rest with
                | r :: rs => if isQuoteChar r then rs else rest
                | [] => [])
          else
            let cap := s3.takeWhile (fun c => !isQuoteChar c)
            if cap.isEmpty then none
            else
              let rest := s3.drop cap.length
              some (cap, match rest with
                | r :: rs => if isQuoteChar r then rs else rest
                | [] => [])
        | [] => none
      else none
  else none

/-- `re.findall` for the assertion pattern: scan positions left to right,
resume after each match.  Fuel is the remaining input length; every step
advances at least one character, so it never runs out. -/
def findAllAux (lit : List Char) : Nat → List Char → List (List Char)
  | 0, _ => []
  | _ + 1, [] => []
  | fuel + 1, s@(_ :: rest) =>
    match matchAssertAt lit s with
    | some (cap, after) => cap :: findAllAux lit fuel after
    | none => findAllAux lit fuel rest

def findAllAssert (lit : List Char) (s : List Char) : List (List Char) :=
  findAllAux lit s.length s

/-! ## Data model: nodes and environment snapshots -/

/-- An entry of a node's `params["fields"]` list: either a plain string or
a dict; the router only asks whether a dict entry has a "selector" key. -/
inductive FieldSpec where
  | fstr (name : String)
  | fdict (name : String) (hasSelector : Bool)
deriving DecidableEq, Repr

/-- The `params` keys the embedded components read.  A missing key is the
empty string / empty list (Python `dict.get` defaults combined with the
truthiness tests at every use site). -/
structure NodeParams where
  url : String := ""
  selector : String := ""
  target : String := ""
  fields : List FieldSpec := []
  required_elements : List String := []
deriving DecidableEq, Repr

/-- A task-graph node (`{id, type, goal, predicate, idempotent, params}`).
`type` stays a string, as in the source's dict accesses. -/
structure Node where
  id : String
  type : String
  goal : String := ""
  predicate : String := ""
  idempotent : Bool := true
  params : NodeParams := {}
deriving DecidableEq, Repr

/-- The accumulated page/environment snapshot (`page_state` dict), with the
keys the embedded components read and their Python defaults. -/
structure PageState where
  url : String := ""
  title : String := ""
  text_content : String := ""
  dom_elements : List String := []
  extracted_data : List (String × String) := []
  collected_items : List String := []
  state_changed : Bool := false
  navigation_success : Bool := false
  compute_error : Option String := none
deriving DecidableEq, Repr

/-! ## DualVerifier (src/graph_executor/dual_verifier.py) -/

structure VerifierConfig where
  hard_check_weight : ℚ := 6/10
  soft_check_weight : ℚ := 3/10
  consistency_weight : ℚ := 1/10
  confidence_threshold : ℚ := 7/10
deriving DecidableEq, Repr

structure VDetails where
  node_id : String
  node_type : String
  threshold : ℚ
deriving DecidableEq, Repr

structure VerificationResult where
  confidence : ℚ
  hard_score : ℚ
  soft_score : ℚ
  consistency_score : ℚ
  passed : Bool
  details : VDetails
deriving DecidableEq, Repr

inductive ModelTier where
  | NO_LLM
  | SMALL
  | LARGE
deriving DecidableEq, Repr

/-- Python's `min` on two rationals (explicitly decidable, so that concrete
runs of the embedded code kernel-reduce). -/
def ratMin (a b : ℚ) : ℚ := if a ≤ b then a else b

/-- `DualVerifier._check_url_pattern`. -/
def check_url_pattern (predicate current_url : String) : Bool :=
  if predicate = "" || current_url = "" then false
  else
    (findAllAssert "URL".data predicate.data).any fun pat =>
      charsInfix (lowerChars pat) (lowerChars current_url.data)

/-- `DualVerifier._check_title_match`. -/
def check_title_match (predicate page_title : String) : Bool :=
  if predicate = "" || page_title = "" then false
  else
    (findAllAssert "标题".data predicate.data).any fun pat =>
      charsInfix (lowerChars pat) (lowerChars page_title.data)

/-- `DualVerifier._check_dom_elements`: true when no elements are required,
else when at least one element was collected. -/
def check_dom_elements (node : Node) (dom_elements : List String) : Bool :=
  if node.params.required_elements.isEmpty then true
  else dom_elements.length > 0

/-- `DualVerifier._hard_check`: +0.2 URL, +0.15 title, +0.15 DOM,
+0.1 type-specific, capped at 0.6. -/
def hard_check (node : Node) (ps : PageState) : ℚ :=
  let s1 : ℚ := if check_url_pattern node.predicate ps.url then 2/10 else 0
  let s2 : ℚ := s1 + (if check_title_match node.predicate ps.title then 15/100 else 0)
  let s3 : ℚ := s2 + (if check_dom_elements node ps.dom_elements then 15/100 else 0)
  let s4 : ℚ := s3 +
    (if node.type = "NAVIGATE" then
      (if ps.url ≠ "" ∧ ps.url ≠ "about:blank" then 1/10 else 0)
    else if node.type = "COLLECT" then
      (if ps.dom_elements.length > 0 then 1/10 else 0)
    else if node.type = "EXTRACT" then
      (if ¬ ps.extracted_data.isEmpty then 1/10 else 0)
    else if node.type = "ACT" then
      (if ps.state_changed then 1/10 else 0)
    else 0)
  ratMin s4 (6/10)

/-- `DualVerifier._simple_semantic_check`: keyword-overlap ratio between the
goal's whitespace tokens and the page text, scaled by 0.3. -/
def simple_semantic_check (node : Node) (ps : PageState) : ℚ :=
  let goal := lowerChars node.goal.data
  let content := lowerChars ps.text_content.data
  let keywords := splitWs goal
  let hits := (keywords.filter (fun kw => charsInfix kw content)).length
  if keywords.isEmpty then 0
  else ((hits : ℚ) / (keywords.length : ℚ)) * (3/10)

/-- `DualVerifier._consistency_check`. -/
def consistency_check (node : Node) (ps : PageState) : ℚ :=
  if node.type = "EXTRACT" then
    let extracted := ps.extracted_data
    let expected := node.params.fields
    if ¬ expected.isEmpty then
      let present := expected.filter fun f =>
        match f with
        | .fstr n => (extracted.map Prod.fst).contains n
        | .fdict _ _ => false   -- a dict field is unhashable; outside the modelled domain
      ((present.length : ℚ) / (expected.length : ℚ)) * (1/10)
    else if ¬ extracted.isEmpty then 1/10 else 0
  else if node.type = "COLLECT" then
    if ps.collected_items.length > 0 then 1/10 else 0
  else if node.type = "COMPUTE" then
    if ps.compute_error = none then 1/10 else 0
  else if node.type = "NAVIGATE" then
    if ps.navigation_success then 1/10 else 0
  else 0

/-- `DualVerifier.verify` with no LLM client configured (soft channel falls
back to `_simple_semantic_check`); `model_tier` of `NO_LLM` zeroes the soft
channel.  Note the weights are applied to channel scores that are already
capped at 0.6 / 0.3 / 0.1. -/
def verify (cfg : VerifierConfig) (node : Node) (ps : PageState)
    (model_tier : Option ModelTier) : VerificationResult :=
  let hs := hard_check node ps
  let ss := if model_tier = some ModelTier.NO_LLM then 0 else simple_semantic_check node ps
  let cs := consistency_check node ps
  let conf := cfg.hard_check_weight * hs + cfg.soft_check_weight * ss +
    cfg.consistency_weight * cs
  { confidence := conf
    hard_score := hs
    soft_score := ss
    consistency_score := cs
    passed := decide (cfg.confidence_threshold ≤ conf)
    details := { node_id := node.id, node_type := node.type, threshold := cfg.confidence_threshold } }

/-! ## CostAwareRouter (src/router/router.py) -/

structure RouterConfig where
  small_model : String := "gpt-3.5-turbo"
  large_model : String := "gpt-4"
  upgrade_after_failures : Nat := 3
  use_llm_threshold : ℚ := 5/10
deriving DecidableEq, Repr

/-- `CostStats`; the `calls_by_node` dict is modelled as a total counter
function (missing key = 0). -/
structure CostStats where
  total_calls : Nat := 0
  no_llm_calls : Nat := 0
  small_model_calls : Nat := 0
  large_model_calls : Nat := 0
  total_tokens : Nat := 0
  total_cost : ℚ := 0
  calls_by_node : String → Nat := fun _ => 0

/-- Router process state: usage statistics plus the per-node failure
counters (`failure_counts` dict, missing key = 0). -/
structure RouterState where
  stats : CostStats := {}
  failure_counts : String → Nat := fun _ => 0

/-- `CostAwareRouter.MODEL_PRICES` (USD per 1K tokens, input/output). -/
def MODEL_PRICES (name : String) : Option (ℚ × ℚ) :=
  if name = "gpt-3.5-turbo" then some (15/10000, 2/1000)
  else if name = "gpt-4" then some (3/100, 6/100)
  else if name = "gpt-4-turbo" then some (1/100, 3/100)
  else none

/-- `CostAwareRouter._can_parse_directly`. -/
def can_parse_directly (node : Node) : Bool :=
  if node.type = "NAVIGATE" ∧ node.params.url ≠ "" then true
  else if node.type = "COLLECT" ∧ node.params.selector ≠ "" then true
  else if node.type = "EXTRACT" ∧
      node.params.fields.all (fun f => match f with
        | .fstr _ => false
        | .fdict _ hasSel => hasSel) then true
  else if node.type = "ACT" ∧ node.params.target ≠ "" then true
  else false

/-- `CostAwareRouter._evaluate_dom_complexity`: average of the capped
element-count and text-length ratios. -/
def evaluate_dom_complexity (ps : PageState) : ℚ :=
  let element_score := ratMin ((ps.dom_elements.length : ℚ) / 1000) 1
  let text_score := ratMin ((ps.text_content.length : ℚ) / 10000) 1
  (element_score + text_score) / 2

/-- `CostAwareRouter.route`: first-match cascade, with the per-tier call
counters incremented on the taken branch. -/
def route (cfg : RouterConfig) (node : Node) (ps : PageState) (st : RouterState) :
    ModelTier × RouterState :=
  if can_parse_directly node then
    (ModelTier.NO_LLM, { st with stats := { st.stats with no_llm_calls := st.stats.no_llm_calls + 1 } })
  else if cfg.upgrade_after_failures ≤ st.failure_counts node.id then
    (ModelTier.LARGE, { st with stats := { st.stats with large_model_calls := st.stats.large_model_calls + 1 } })
  else if cfg.use_llm_threshold < evaluate_dom_complexity ps then
    (ModelTier.LARGE, { st with stats := { st.stats with large_model_calls := st.stats.large_model_calls + 1 } })
  else if node.type = "VERIFY" ∨ node.type = "EXTRACT" then
    (ModelTier.SMALL, { st with stats := { st.stats with small_model_calls := st.stats.small_model_calls + 1 } })
  else
    (ModelTier.SMALL, { st with stats := { st.stats with small_model_calls := st.stats.small_model_calls + 1 } })

/-- `CostAwareRouter.record_failure`. -/
def record_failure (st : RouterState) (node_id : String) : RouterState :=
  { st with failure_counts :=
      Function.update st.failure_counts node_id (st.failure_counts node_id + 1) }

/-- `CostAwareRouter.record_success`: reset the node's failure counter.
(When the key is absent Python leaves the dict unchanged; the counter
reads 0 either way, so the total-function model updates to 0.) -/
def record_success (st : RouterState) (node_id : String) : RouterState :=
  { st with failure_counts := Function.update st.failure_counts node_id 0 }

/-- `CostAwareRouter.record_call`: total and per-node counters always
increment; cost and token totals change only for a priced SMALL/LARGE
model (the NO_LLM branch returns before the price lookup). -/
def record_call (cfg : RouterConfig) (model_tier : ModelTier) (node_id : String)
    (input_tokens output_tokens : Nat) (st : RouterState) : RouterState :=
  let stats1 := { st.stats with
    total_calls := st.stats.total_calls + 1
    calls_by_node := Function.update st.stats.calls_by_node node_id
      (st.stats.calls_by_node node_id + 1) }
  match model_tier with
  | ModelTier.NO_LLM => { st with stats := stats1 }
  | _ =>
    let model_name := if model_tier = ModelTier.SMALL then cfg.small_model else cfg.large_model
    match MODEL_PRICES model_name with
    | none => { st with stats := stats1 }
    | some (pin, pout) =>
      let cost := (input_tokens : ℚ) / 1000 * pin + (output_tokens : ℚ) / 1000 * pout
      { st with stats := { stats1 with
          total_tokens := stats1.total_tokens + (input_tokens + output_tokens)
          total_cost := stats1.total_cost + cost } }

/-! ## RollbackManager (src/local_repair/rollback.py) -/

structure BrowserState where
  url : String := ""
  cookies : List String := []
  local_storage : List (String × String) := []
deriving DecidableEq, Repr

structure Checkpoint where
  node_id : String
  step : Nat
  page_state : PageState := {}
  browser_state : BrowserState := {}
  timestamp : ℚ := 0
deriving DecidableEq, Repr

instance : Inhabited Checkpoint := ⟨{ node_id := "", step := 0 }⟩

/-- An entry of `rollback_history` (the two dict shapes the source appends). -/
inductive RollbackRecord where
  | toNode (from_step to_step : Nat) (to_node : String)
  | bySteps (from_step to_step steps : Nat)
deriving DecidableEq, Repr

structure RollbackManager where
  max_checkpoints : Nat := 10
  checkpoints : List Checkpoint := []
  rollback_history : List RollbackRecord := []
deriving DecidableEq, Repr

/-- `RollbackManager.save_checkpoint`: append, then evict the oldest entry
when over capacity. -/
def save_checkpoint (rb : RollbackManager) (cp : Checkpoint) : RollbackManager :=
  let cps := rb.checkpoints ++ [cp]
  { rb with checkpoints := if rb.max_checkpoints < cps.length then cps.drop 1 else cps }

/-- Scan `checkpoints` newest-to-oldest for a matching node id; on a match
return the retained prefix (up to and including the match) and the match.
(`for i in range(len-1, -1, -1)` in the source.) -/
def scanBack (node_id : String) : List Checkpoint → Option (List Checkpoint × Checkpoint)
  | [] => none
  | cp :: rest =>
    match scanBack node_id rest with
    | some (kept, found) => some (cp :: kept, found)
    | none => if cp.node_id = node_id then some ([cp], cp) else none

/-- `RollbackManager.rollback_to_node`: newest-to-oldest scan; on a match
truncate to and including that entry and append an audit record; on a miss
return `none` with the manager untouched. -/
def rollback_to_node (rb : RollbackManager) (node_id : String) :
    Option Checkpoint × RollbackManager :=
  match scanBack node_id rb.checkpoints with
  | none => (none, rb)
  | some (kept, found) =>
    let from_step := match rb.checkpoints.getLast? with
      | some last => last.step
      | none => 0
    (some found,
      { rb with
        checkpoints := kept
        rollback_history := rb.rollback_history ++
          [RollbackRecord.toNode from_step found.step node_id] })

/-- `RollbackManager.rollback_steps`. -/
def rollback_steps (rb : RollbackManager) (steps : Nat) : Option Checkpoint × RollbackManager :=
  if rb.checkpoints.isEmpty ∨ steps = 0 then (none, rb)
  else
    let target_index := rb.checkpoints.length - steps - 1
    let cp := rb.checkpoints.getD target_index default
    let from_step := match rb.checkpoints.getLast? with
      | some last => last.step
      | none => 0
    (some cp,
      { rb with
        checkpoints := rb.checkpoints.take (target_index + 1)
        rollback_history := rb.rollback_history ++
          [RollbackRecord.bySteps from_step cp.step steps] })

/-- `RollbackManager.clear_checkpoints`. -/
def clear_checkpoints (rb : RollbackManager) : RollbackManager :=
  { rb with checkpoints := [] }

/-- A mutating operation on the rollback manager, for stating the history
bound over any operation sequence. -/
inductive RbOp where
  | save (cp : Checkpoint)
  | rollbackNode (node_id : String)
  | rollbackSteps (n : Nat)
  | clear
deriving Repr

def applyRbOp (rb : RollbackManager) : RbOp → RollbackManager
  | .save cp => save_checkpoint rb cp
  | .rollbackNode id => (rollback_to_node rb id).2
  | .rollbackSteps n => (rollback_steps rb n).2
  | .clear => clear_checkpoints rb

/-! ## Task graph and topological order
(src/task_compiler/validator.py, GraphValidator.get_topological_order) -/

structure TaskGraph where
  task_id : String := ""
  nodes : List Node := []
  edges : List (String × String) := []
deriving Repr

/-- Initial in-degree of `v`: the number of edges pointing at `v`
(`in_degree` after the two build loops, as a total function). -/
def initIndeg (edges : List (String × String)) (v : String) : Int :=
  ((edges.filter fun e => e.2 = v).length : Int)

/-- The Kahn queue seed: declared ids with in-degree 0, in declaration
order (`deque` seeded from `in_degree.items()`, whose insertion order is
the node-declaration order). -/
def seedQueue (ids : List String) (edges : List (String × String)) : List String :=
  ids.filter fun v => initIndeg edges v = 0

/-- Adjacency list of `u` (`graph[u]`), in edge-declaration order. -/
def adjOf (edges : List (String × String)) (u : String) : List String :=
  (edges.filter fun e => e.1 = u).map Prod.snd

/-- Process the popped node's neighbors: decrement each in-degree; push a
neighbor at the back of the queue when its in-degree reaches exactly 0. -/
def processAdj : List String → (String → Int) → List String → (String → Int) × List String
  | [], indeg, queue => (indeg, queue)
  | v :: vs, indeg, queue =>
    let d := indeg v - 1
    let indeg' := Function.update indeg v d
    let queue' := if d = 0 then queue ++ [v] else queue
    processAdj vs indeg' queue'

/-- The Kahn loop: pop from the front, emit, relax neighbors.  The fuel is
an upper bound on the number of iterations (each pop emits a fresh node;
`kahn_fuel` below always suffices, see `kahnLoop_spec`). -/
def kahnLoop (edges : List (String × String)) :
    Nat → List String → (String → Int) → List String → List String
  | 0, _, _, result => result
  | _ + 1, [], _, result => result
  | fuel + 1, u :: rest, indeg, result =>
    let s := processAdj (adjOf edges u) indeg rest
    kahnLoop edges fuel s.2 s.1 (result ++ [u])

def kahn_fuel (nodes : List Node) (edges : List (String × String)) : Nat :=
  nodes.length + edges.length + 1

/-- `GraphValidator.get_topological_order`: Kahn's algorithm; raises
(`Except.error`) when the emitted order is shorter than the node count. -/
def get_topological_order (nodes : List Node) (edges : List (String × String)) :
    Except String (List String) :=
  let ids := nodes.map Node.id
  let result := kahnLoop edges (kahn_fuel nodes edges) (seedQueue ids edges)
    (initIndeg edges) []
  if result.length ≠ nodes.length then Except.error "无法生成拓扑排序，图中可能存在环"
  else Except.ok result

/-! ## LocalRepairEngine (src/local_repair/repair.py) -/

inductive FailureType where
  | GROUNDING_FAIL
  | STATE_FAIL
  | EXTRACTION_FAIL
  | COMPUTE_FAIL
  | PLAN_FAIL
  | UNKNOWN
deriving DecidableEq, Repr

structure RepairStrategy where
  failure_type : FailureType
  strategy_name : String
  actions : List String
  rollback_depth : Nat
deriving DecidableEq, Repr

/-- `LocalRepairEngine._init_repair_strategies`: the static per-failure-type
strategy table; missing keys (UNKNOWN) read as the empty list
(`dict.get(failure_type, [])`). -/
def repair_strategies : FailureType → List RepairStrategy
  | .GROUNDING_FAIL =>
    [⟨.GROUNDING_FAIL, "切换锚点", ["try_alternative_selector", "use_text_match", "use_xpath"], 0⟩,
     ⟨.GROUNDING_FAIL, "等待元素出现", ["wait_longer", "scroll_to_view"], 0⟩]
  | .STATE_FAIL =>
    [⟨.STATE_FAIL, "关闭弹窗", ["close_popup", "dismiss_modal"], 0⟩,
     ⟨.STATE_FAIL, "重新导航", ["refresh_page", "navigate_again"], 1⟩]
  | .EXTRACTION_FAIL =>
    [⟨.EXTRACTION_FAIL, "扩展页面集合", ["try_next_page", "expand_section"], 0⟩,
     ⟨.EXTRACTION_FAIL, "调整提取规则", ["relax_extraction_rules", "use_alternative_fields"], 0⟩]
  | .COMPUTE_FAIL =>
    [⟨.COMPUTE_FAIL, "代码反思", ["fix_computation", "use_fallback_value"], 0⟩]
  | .PLAN_FAIL =>
    [⟨.PLAN_FAIL, "回滚至COLLECT", ["rollback_to_collect"], 2⟩]
  | .UNKNOWN => []

/-- `LocalRepairEngine.select_repair_strategy`. -/
def select_repair_strategy (failure_type : FailureType) (attempt : Nat) :
    Option RepairStrategy :=
  let strategies := repair_strategies failure_type
  if strategies.length ≤ attempt then none else strategies.get? attempt

/-- Parents of `v` (`reverse_graph[v]`), in edge-declaration order. -/
def parentsOf (edges : List (String × String)) (v : String) : List String :=
  (edges.filter fun e => e.2 = v).map Prod.fst

/-- The backward-BFS accumulation of `_find_ancestors`: `depth` rounds,
each extending the frontier by all parents. -/
def ancGo (edges : List (String × String)) : Nat → List String → List String
  | 0, _ => []
  | d + 1, current =>
    let next_level := current.flatMap (parentsOf edges)
    next_level ++ ancGo edges d next_level

/-- `LocalRepairEngine._find_ancestors`; the source's final `list(set(...))`
(arbitrary iteration order, used only for membership) is modelled by
`dedup`. -/
def find_ancestors (edges : List (String × String)) (node_id : String) (depth : Nat) :
    List String :=
  (ancGo edges depth [node_id]).dedup

/-- Children of `u` (`graph[u]`), in edge-declaration order. -/
def childrenOf (edges : List (String × String)) (u : String) : List String :=
  (edges.filter fun e => e.1 = u).map Prod.snd

/-- The recursive `dfs` of `_find_descendants`, as a preorder worklist.
State: (visited, desc).  Popping an unvisited `u` expands it: `u` is
marked visited, each of its children is recorded in `desc`, and the
children are pushed ahead of the remaining work — the expansion order is
exactly the source recursion's preorder.  (The source appends each child
to `desc` immediately before recursing into it; that only interleaves the
same per-edge appends, and `desc` is consumed by membership only.)
Each step pops one entry; the pushed entries number at most one per edge,
so `edges.length + 2` units of fuel always run the recursion to the end. -/
def dfsRun (edges : List (String × String)) :
    Nat → List String → List String × List String → List String × List String
  | 0, _, st => st
  | _ + 1, [], st => st
  | fuel + 1, u :: stack, st =>
    if u ∈ st.1 then dfsRun edges fuel stack st
    else dfsRun edges fuel (childrenOf edges u ++ stack)
      (u :: st.1, st.2 ++ childrenOf edges u)

/-- `LocalRepairEngine._find_descendants`: all forward-reachable nodes
(with multiplicity; only membership is consumed downstream). -/
def find_descendants (edges : List (String × String)) (node_id : String) : List String :=
  (dfsRun edges (edges.length + 2) [node_id] ([], [])).2

/-- `LocalRepairEngine.compute_rollback_subgraph`.  Note it consults the
strategy at attempt index **0** for the failure type — not the strategy of
the current repair attempt. -/
def compute_rollback_subgraph (g : TaskGraph) (failed_node_id : String)
    (failure_type : FailureType) : Except String (List String × Nat) :=
  match select_repair_strategy failure_type 0 with
  | none => Except.ok ([failed_node_id], 0)
  | some strat =>
    let rollback_depth := strat.rollback_depth
    let ancestors := find_ancestors g.edges failed_node_id rollback_depth
    let subgraph_nodes := (ancestors ++ [failed_node_id]) ++ find_descendants g.edges failed_node_id
    (get_topological_order g.nodes g.edges).map fun topo =>
      (topo.filter (fun nid => subgraph_nodes.contains nid), rollback_depth)

/-! ## GraphExecutor (src/graph_executor/executor.py)

The browser actions, stability wait, evidence collection, verification and
no-progress detection inside `_execute_node` interact with the external
environment; their combined effect on one node is abstracted as a
per-node-id outcome oracle.  The bookkeeping around them — status map,
result records, step budget, fail-fast loop, result construction — is
embedded concretely. -/

inductive NodeStatus where
  | PENDING
  | RUNNING
  | SUCCESS
  | FAILED
  | SKIPPED
deriving DecidableEq, Repr

/-- The outcome of running `_execute_node`'s steps 1–5 on one node:
an exception (caught, recorded as an error), a no-progress force-fail,
a failed verification, or a pass. -/
inductive NodeOut where
  | exc (err : String)
  | noProgress (conf : ℚ)
  | failedVerif (conf : ℚ)
  | passed (conf : ℚ)
deriving DecidableEq, Repr

def NodeOut.ok : NodeOut → Bool
  | .passed _ => true
  | _ => false

/-- One entry of `context.node_results` (the dict written by
`_execute_node`, restricted to the keys the claims read). -/
structure NodeResultRec where
  status : String
  confidence : Option ℚ := none
  reason : Option String := none
  error : Option String := none
deriving DecidableEq, Repr

/-- The record `_execute_node` writes for its node under each outcome. -/
def recordOf : NodeOut → NodeResultRec
  | .exc e => { status := "failed", error := some e }
  | .noProgress c => { status := "failed", confidence := some c, reason := some "无进展检测触发" }
  | .failedVerif c => { status := "failed", confidence := some c, reason := some "验证未通过" }
  | .passed c => { status := "success", confidence := some c }

structure ExecCtx where
  node_states : String → NodeStatus := fun _ => NodeStatus.PENDING
  node_results : String → Option NodeResultRec := fun _ => none
  step_count : Nat := 0

/-- The execution result dict (keys the claims read). -/
structure ExecResult where
  success : Bool
  steps : Nat := 0
  node_results : String → Option NodeResultRec := fun _ => none
  failed_node : Option String := none
  error : Option String := none

def findNode (nodes : List Node) (node_id : String) : Option Node :=
  nodes.find? fun n => n.id = node_id

/-- `_execute_node`'s bookkeeping: final status and result record for the
node, by outcome.  (The transient RUNNING state is immediately overwritten
and never observable at return.) -/
def runNode (outcome : String → NodeOut) (node_id : String) (ctx : ExecCtx) : ExecCtx :=
  { ctx with
    node_states := Function.update ctx.node_states node_id
      (if (outcome node_id).ok then NodeStatus.SUCCESS else NodeStatus.FAILED)
    node_results := Function.update ctx.node_results node_id (some (recordOf (outcome node_id))) }

def successResult (ctx : ExecCtx) : ExecResult :=
  { success := true, steps := ctx.step_count, node_results := ctx.node_results }

def failureResult (failed : Node) (ctx : ExecCtx) : ExecResult :=
  { success := false
    steps := ctx.step_count
    node_results := ctx.node_results
    failed_node := some failed.id
    error := some (match ctx.node_results failed.id with
      | some rec => rec.reason.getD "未知错误"
      | none => "未知错误") }

def errorResult (msg : String) (ctx : ExecCtx) : ExecResult :=
  { success := false, steps := ctx.step_count, error := some msg }

/-- The fail-fast execution loop of `GraphExecutor.execute`. -/
def execGo (g : TaskGraph) (outcome : String → NodeOut) (max_steps : Nat) :
    List String → ExecCtx → ExecResult × ExecCtx
  | [], ctx => (successResult ctx, ctx)
  | node_id :: rest, ctx =>
    if max_steps ≤ ctx.step_count then (errorResult "超过最大步数限制" ctx, ctx)
    else match findNode g.nodes node_id with
      | none => execGo g outcome max_steps rest ctx
      | some node =>
        let ctx' := runNode outcome node_id ctx
        if (outcome node_id).ok then
          execGo g outcome max_steps rest { ctx' with step_count := ctx'.step_count + 1 }
        else (failureResult node ctx', ctx')

/-- `GraphExecutor.execute`: topological order (failure is a pass-fatal
error naming no node), then the fail-fast loop. -/
def execute (g : TaskGraph) (outcome : String → NodeOut) (max_steps : Nat) :
    ExecResult × ExecCtx :=
  match get_topological_order g.nodes g.edges with
  | Except.error e => (errorResult ("拓扑排序失败: " ++ e) {}, {})
  | Except.ok topo_order => execGo g outcome max_steps topo_order {}

/-! ## Repair coordinator (scripts/run_experiment.py, `_attempt_repair`)

The environment-facing steps of one attempt — checkpoint rollback /
environment reset (which do not affect the loop's control flow) and
`apply_repair` — are abstracted by a per-attempt success oracle, and the
re-execution of the rollback subgraph by a per-attempt result oracle. -/

/-- The bounded attempt loop of `_attempt_repair`: `fuel` counts the
remaining attempts (`max_attempts - attempt`).  Breaks with the original
result when no strategy exists for the attempt index; continues on repair
or sub-pass failure; returns the sub-pass result on its success; returns
the original result when attempts are exhausted. -/
def attemptRepairGo (failure_type : FailureType) (repair_ok : Nat → Bool)
    (sub_result : Nat → ExecResult) (initial : ExecResult) : Nat → Nat → ExecResult
  | 0, _ => initial
  | fuel + 1, attempt =>
    match select_repair_strategy failure_type attempt with
    | none => initial
    | some _ =>
      if repair_ok attempt then
        if (sub_result attempt).success then sub_result attempt
        else attemptRepairGo failure_type repair_ok sub_result initial fuel (attempt + 1)
      else attemptRepairGo failure_type repair_ok sub_result initial fuel (attempt + 1)

/-- `_attempt_repair` for a failure already classified as `failure_type`
(classification happens once, before the loop): the loop from attempt 0. -/
def attempt_repair (max_attempts : Nat) (failure_type : FailureType)
    (repair_ok : Nat → Bool) (sub_result : Nat → ExecResult)
    (initial : ExecResult) : ExecResult :=
  attemptRepairGo failure_type repair_ok sub_result initial max_attempts 0

/-! ## Claim theorems -/

/-- A single-quote character as a string, for building predicate literals. -/
def sqStr : String := ⟨[squote]⟩

/-- C10: the strategy table has no UNKNOWN entry, so strategy selection for
UNKNOWN yields none at every attempt index, and the repair loop on an
UNKNOWN-classified failure stops at its first attempt and returns the
original failure result for any attempt bound and any oracle behavior. -/
theorem C10_unknown_never_repaired :
    (∀ i : Nat, select_repair_strategy FailureType.UNKNOWN i = none) ∧
    (∀ (max_attempts : Nat) (repair_ok : Nat → Bool) (sub_result : Nat → ExecResult)
        (initial : ExecResult),
      attempt_repair max_attempts FailureType.UNKNOWN repair_ok sub_result initial = initial) := by
  constructor
  · intro i
    simp [select_repair_strategy, repair_strategies]
  · intro max_attempts repair_ok sub_result initial
    cases max_attempts with
    | zero => rfl
    | succ n =>
      simp [attempt_repair, attemptRepairGo, select_repair_strategy, repair_strategies]

/-- A NAVIGATE node whose predicate asserts both the title (b) and the URL
(a) in the code's own grammar, with a goal fully covered by the page text:
every hard/soft/consistency component fires on `c1Ps`. -/
def c1Node : Node :=
  { id := "n1", type := "NAVIGATE", goal := "a",
    predicate := "标题等" ++ sqStr ++ "b" ++ sqStr ++ " URL等" ++ sqStr ++ "a" ++ sqStr }

def c1Ps : PageState :=
  { url := "https://a", title := "b", text_content := "a", navigation_success := true }

/-- C1 (code bug): at a node and environment where all three channels are
at their maxima (hard 0.6, soft 0.3, consistency 0.1, summing to 1), the
code's confidence is 0.6·0.6 + 0.3·0.3 + 0.1·0.1 = 0.46, not 1, and
`passed` is false despite every channel check succeeding — the weights are
applied a second time to channel scores that already carry their weight as
their maximum, capping confidence at 0.46 < the 0.7 pass threshold. -/
theorem C1_confidence_double_weighted :
    (verify {} c1Node c1Ps none).hard_score = 6/10 ∧
    (verify {} c1Node c1Ps none).soft_score = 3/10 ∧
    (verify {} c1Node c1Ps none).consistency_score = 1/10 ∧
    (verify {} c1Node c1Ps none).hard_score + (verify {} c1Node c1Ps none).soft_score +
      (verify {} c1Node c1Ps none).consistency_score = 1 ∧
    (verify {} c1Node c1Ps none).confidence = 46/100 ∧
    (verify {} c1Node c1Ps none).passed = false := by
  have hhard : hard_check c1Node c1Ps = 6/10 := by
    have hu : check_url_pattern c1Node.predicate c1Ps.url = true := by decide
    have ht : check_title_match c1Node.predicate c1Ps.title = true := by decide
    have hd : check_dom_elements c1Node c1Ps.dom_elements = true := by decide
    simp only [hard_check, hu, ht, hd, if_true]
    show ratMin ((2/10 + 15/100 + 15/100 : ℚ) +
      (if c1Node.type = "NAVIGATE" then
        (if c1Ps.url ≠ "" ∧ c1Ps.url ≠ "about:blank" then (1:ℚ)/10 else 0)
      else if c1Node.type = "COLLECT" then
        (if c1Ps.dom_elements.length > 0 then 1/10 else 0)
      else if c1Node.type = "EXTRACT" then
        (if ¬ c1Ps.extracted_data.isEmpty then 1/10 else 0)
      else if c1Node.type = "ACT" then
        (if c1Ps.state_changed then 1/10 else 0)
      else 0)) (6/10) = 6/10
    rw [if_pos (by decide), if_pos (by decide)]
    norm_num [ratMin]
  have hsoft : simple_semantic_check c1Node c1Ps = 3/10 := by
    have hk : splitWs (lowerChars c1Node.goal.data) = ["a".data] := by decide
    have hf : (["a".data].filter
        (fun kw => charsInfix kw (lowerChars c1Ps.text_content.data))).length = 1 := by decide
    simp only [simple_semantic_check, hk, hf]
    norm_num
  have hcons : consistency_check c1Node c1Ps = 1/10 := by
    simp only [consistency_check]
    rw [if_neg (by decide), if_neg (by decide), if_neg (by decide), if_pos (by decide),
      if_pos (by decide)]
  refine ⟨?_, ?_, ?_, ?_, ?_, ?_⟩ <;>
    simp only [verify, hhard, hsoft, hcons, reduceCtorEq, if_false,
      Option.some.injEq, if_neg (by decide : ¬ (none = some ModelTier.NO_LLM))] <;>
    norm_num

/-- C9 (code bug): the URL extractor's regular expression uses a character
class `[包含|匹配|等于]` (one character) after the literal `URL`, so the
documented grammar "URL contains '<value>'" never matches, and even the
Chinese form "URL包含'<value>'" captures the stray character 含 instead of
the value: in both cases the +0.2 URL hard-check component is not awarded
although the asserted value occurs in the current URL. -/
theorem C9_url_component_never_awarded :
    check_url_pattern ("URL contains " ++ sqStr ++ "example.com" ++ sqStr)
      "https://example.com/home" = false ∧
    check_url_pattern ("URL包含" ++ sqStr ++ "search" ++ sqStr)
      "https://example.com/search" = false := by
  decide

/-- C7 (counterexample): a node that routing rule 1 classifies as fully
self-sufficient (NAVIGATE with an explicit URL) is routed to the NO_LLM
tier even though its failure counter has reached the escalation threshold
(3 ≥ 3) — rule 1 precedes the escalation rule in the first-match cascade,
so the claim's unconditional "counter ≥ threshold → HIGH" fails. -/
theorem C7_counterexample :
    let node : Node := { id := "n1", type := "NAVIGATE", params := { url := "https://x" } }
    let st : RouterState := { failure_counts := fun i => (if i = "n1" then 3 else 0) }
    ({} : RouterConfig).upgrade_after_failures ≤ st.failure_counts node.id ∧
    (route {} node {} st).1 = ModelTier.NO_LLM := by
  constructor
  · decide
  · rfl

/-- C7 (amended): for every node NOT classified fully self-sufficient by
routing rule 1, a failure counter at or above the escalation threshold
routes to the LARGE (HIGH) tier regardless of environment complexity; and
`record_failure` increments the node's counter by one while
`record_success` resets it to 0 (other nodes' counters untouched). -/
theorem C7_escalation_amended :
    (∀ (cfg : RouterConfig) (node : Node) (ps : PageState) (st : RouterState),
      can_parse_directly node = false →
      cfg.upgrade_after_failures ≤ st.failure_counts node.id →
      (route cfg node ps st).1 = ModelTier.LARGE) ∧
    (∀ (st : RouterState) (id other : String),
      (record_failure st id).failure_counts id = st.failure_counts id + 1 ∧
      (record_success st id).failure_counts id = 0 ∧
      (other ≠ id →
        (record_failure st id).failure_counts other = st.failure_counts other ∧
        (record_success st id).failure_counts other = st.failure_counts other)) := by
  refine ⟨fun cfg node ps st hparse hthr => ?_, fun st id other => ?_⟩
  · simp only [route, hparse, Bool.false_eq_true, if_false, if_pos hthr]
  · refine ⟨?_, ?_, fun hne => ⟨?_, ?_⟩⟩
    · simp [record_failure, Function.update]
    · simp [record_success, Function.update]
    · simp [record_failure, Function.update, hne]
    · simp [record_success, Function.update, hne]

/-- Witness for the amended C7 theorem: a VERIFY node (not self-sufficient)
with failure counter 3 at the default threshold 3 is routed LARGE. -/
theorem C7_escalation_amended_witness :
    (route {} { id := "n2", type := "VERIFY" } {}
      { failure_counts := fun i => if i = "n2" then 3 else 0 }).1 = ModelTier.LARGE :=
  C7_escalation_amended.1 {} { id := "n2", type := "VERIFY" } {}
    { failure_counts := fun i => if i = "n2" then 3 else 0 } (by decide) (by decide)

/-- C8 (counterexample): `record_call` with the SMALL tier does record the
call (total counter becomes 1) but leaves the SMALL per-tier counter at 0 —
the per-tier counters are not incremented by `record_call`. -/
theorem C8_counterexample :
    (record_call {} ModelTier.SMALL "n1" 1000 1000 {}).stats.small_model_calls = 0 ∧
    (record_call {} ModelTier.SMALL "n1" 1000 1000 {}).stats.total_calls = 1 := by
  constructor <;> rfl

/-- C8 (amended): every `record_call` increments the total call counter and
the node's per-node counter by one and leaves all three per-tier counters
unchanged (those are incremented by `route` at routing time); the cost
grows by the tier's default-model per-1,000-token prices applied
independently to input and output tokens, and a NO_LLM-tier call leaves
the cost and token totals unchanged. -/
theorem C8_record_call_amended :
    (∀ (cfg : RouterConfig) (tier : ModelTier) (id : String) (tin tout : Nat)
        (st : RouterState),
      (record_call cfg tier id tin tout st).stats.total_calls = st.stats.total_calls + 1 ∧
      (record_call cfg tier id tin tout st).stats.calls_by_node id
        = st.stats.calls_by_node id + 1 ∧
      (record_call cfg tier id tin tout st).stats.no_llm_calls = st.stats.no_llm_calls ∧
      (record_call cfg tier id tin tout st).stats.small_model_calls
        = st.stats.small_model_calls ∧
      (record_call cfg tier id tin tout st).stats.large_model_calls
        = st.stats.large_model_calls) ∧
    (∀ (cfg : RouterConfig) (id : String) (tin tout : Nat) (st : RouterState),
      (record_call cfg ModelTier.NO_LLM id tin tout st).stats.total_cost
        = st.stats.total_cost ∧
      (record_call cfg ModelTier.NO_LLM id tin tout st).stats.total_tokens
        = st.stats.total_tokens) ∧
    (∀ (id : String) (tin tout : Nat) (st : RouterState),
      (record_call {} ModelTier.SMALL id tin tout st).stats.total_cost
        = st.stats.total_cost + ((tin : ℚ) / 1000 * (15/10000) + (tout : ℚ) / 1000 * (2/1000)) ∧
      (record_call {} ModelTier.SMALL id tin tout st).stats.total_tokens
        = st.stats.total_tokens + (tin + tout) ∧
      (record_call {} ModelTier.LARGE id tin tout st).stats.total_cost
        = st.stats.total_cost + ((tin : ℚ) / 1000 * (3/100) + (tout : ℚ) / 1000 * (6/100)) ∧
      (record_call {} ModelTier.LARGE id tin tout st).stats.total_tokens
        = st.stats.total_tokens + (tin + tout)) := by
  refine ⟨fun cfg tier id tin tout st => ?_, fun cfg id tin tout st => ?_,
    fun id tin tout st => ?_⟩
  · cases tier
    · simp [record_call, Function.update]
    · simp only [record_call]
      split <;> simp [Function.update]
    · simp only [record_call]
      split <;> simp [Function.update]
  · simp [record_call]
  · have h35 : MODEL_PRICES "gpt-3.5-turbo" = some (15/10000, 2/1000) := rfl
    have h4 : MODEL_PRICES "gpt-4" = some (3/100, 6/100) := rfl
    refine ⟨?_, ?_, ?_, ?_⟩ <;>
      simp [record_call, h35, h4, RouterConfig.small_model, RouterConfig.large_model]

/-! ### C4: bounded checkpoint history -/

lemma scanBack_eq_none_of_no_match (id : String) :
    ∀ cps : List Checkpoint, (∀ cp ∈ cps, cp.node_id ≠ id) → scanBack id cps = none := by
  intro cps h
  induction cps with
  | nil => rfl
  | cons cp rest ih =>
    simp only [scanBack]
    rw [ih fun c hc => h c (List.mem_cons_of_mem _ hc)]
    simp [h cp (List.mem_cons_self _ _)]

lemma scanBack_kept_length (id : String) :
    ∀ (cps kept : List Checkpoint) (f : Checkpoint),
      scanBack id cps = some (kept, f) → kept.length ≤ cps.length := by
  intro cps
  induction cps with
  | nil => intro kept f h; simp [scanBack] at h
  | cons cp rest ih =>
    intro kept f h
    simp only [scanBack] at h
    cases hrec : scanBack id rest with
    | some kf =>
      rw [hrec] at h
      cases h
      have := ih kf.1 kf.2 (by rw [hrec])
      simpa using Nat.succ_le_succ this
    | none =>
      rw [hrec] at h
      by_cases hid : cp.node_id = id
      · rw [if_pos hid] at h
        cases h
        simp
      · rw [if_neg hid] at h
        cases h

lemma applyRbOp_max (rb : RollbackManager) (op : RbOp) :
    (applyRbOp rb op).max_checkpoints = rb.max_checkpoints := by
  cases op with
  | save cp => rfl
  | rollbackNode id =>
    simp only [applyRbOp, rollback_to_node]
    cases h : scanBack id rb.checkpoints with
    | none => rfl
    | some kf => cases kf; rfl
  | rollbackSteps n =>
    simp only [applyRbOp, rollback_steps]
    split <;> rfl
  | clear => rfl

lemma applyRbOp_length (rb : RollbackManager) (op : RbOp)
    (h : rb.checkpoints.length ≤ rb.max_checkpoints) :
    (applyRbOp rb op).checkpoints.length ≤ rb.max_checkpoints := by
  cases op with
  | save cp =>
    simp only [applyRbOp, save_checkpoint]
    split <;> simp_all <;> omega
  | rollbackNode id =>
    simp only [applyRbOp, rollback_to_node]
    cases hs : scanBack id rb.checkpoints with
    | none => exact h
    | some kf =>
      cases kf with
      | mk kept f =>
        have := scanBack_kept_length id rb.checkpoints kept f hs
        simpa using le_trans this h
  | rollbackSteps n =>
    simp only [applyRbOp, rollback_steps]
    split
    · exact h
    · have htake : (rb.checkpoints.take (rb.checkpoints.length - n - 1 + 1)).length
          ≤ rb.checkpoints.length := by
        rw [List.length_take]; omega
      exact le_trans htake h
  | clear => simpa [applyRbOp, clear_checkpoints] using Nat.zero_le _

lemma foldl_applyRbOp_inv :
    ∀ (ops : List RbOp) (rb : RollbackManager),
      rb.checkpoints.length ≤ rb.max_checkpoints →
      (ops.foldl applyRbOp rb).checkpoints.length ≤ rb.max_checkpoints := by
  intro ops
  induction ops with
  | nil => intro rb h; exact h
  | cons op rest ih =>
    intro rb h
    have h1 := applyRbOp_length rb op h
    have h2 := ih (applyRbOp rb op) (by rw [applyRbOp_max]; exact h1)
    rw [applyRbOp_max] at h2
    exact h2

lemma save_checkpoint_max (rb : RollbackManager) (cp : Checkpoint) :
    (save_checkpoint rb cp).max_checkpoints = rb.max_checkpoints := rfl

lemma save_checkpoint_drop (rb : RollbackManager) (p : List Checkpoint) (cp : Checkpoint)
    (h : rb.checkpoints = p.drop (p.length - rb.max_checkpoints)) :
    (save_checkpoint rb cp).checkpoints
      = (p ++ [cp]).drop ((p ++ [cp]).length - rb.max_checkpoints) := by
  have hlen : (p.drop (p.length - rb.max_checkpoints)).length
      = p.length - (p.length - rb.max_checkpoints) := List.length_drop _ _
  simp only [save_checkpoint, h, List.length_append, List.length_singleton]
  by_cases hK : rb.max_checkpoints ≤ p.length
  · have hcur : (p.drop (p.length - rb.max_checkpoints)).length = rb.max_checkpoints := by
      rw [hlen]; omega
    rw [if_pos (by rw [hcur]; omega)]
    by_cases hK0 : rb.max_checkpoints = 0
    · have hp : p.length - rb.max_checkpoints = p.length := by omega
      simp [hp, List.drop_length, hK0, List.drop_eq_nil_of_le]
    · rw [List.drop_append_of_le_length (by rw [hcur]; omega), List.drop_drop,
        List.drop_append_of_le_length (by omega)]
      have harith : p.length - rb.max_checkpoints + 1 = p.length + 1 - rb.max_checkpoints := by
        omega
      rw [harith]
  · have h0 : p.length - rb.max_checkpoints = 0 := by omega
    rw [h0, List.drop_zero]
    rw [if_neg (by simp only [h0, List.drop_zero] at hlen ⊢; omega)]
    have h1 : p.length + 1 - rb.max_checkpoints = 0 := by omega
    rw [h1, List.drop_zero]

lemma foldl_save_shape :
    ∀ (cps p : List Checkpoint) (rb : RollbackManager),
      rb.checkpoints = p.drop (p.length - rb.max_checkpoints) →
      (cps.foldl save_checkpoint rb).checkpoints
        = (p ++ cps).drop ((p ++ cps).length - rb.max_checkpoints) := by
  intro cps
  induction cps with
  | nil => intro p rb h; simpa using h
  | cons cp rest ih =>
    intro p rb h
    have hstep := save_checkpoint_drop rb p cp h
    have hmax := save_checkpoint_max rb cp
    have := ih (p ++ [cp]) (save_checkpoint rb cp) (by rw [hmax]; exact hstep)
    rw [hmax] at this
    simpa [List.append_assoc] using this

/-- C4: (i) after any sequence of save/rollback/clear operations from an
empty manager with capacity K, the checkpoint history never exceeds K
entries; (ii) saving a sequence of checkpoints retains exactly the K most
recent (FIFO eviction of the oldest); (iii) a rollback-to-node whose id
appears on no retained checkpoint returns the not-found outcome `none`
and leaves the manager — history included — unchanged. -/
theorem C4_checkpoint_history_bounded :
    (∀ (K : Nat) (ops : List RbOp),
      ((ops.foldl applyRbOp { max_checkpoints := K }).checkpoints).length ≤ K) ∧
    (∀ (K : Nat) (cps : List Checkpoint),
      (cps.foldl save_checkpoint { max_checkpoints := K }).checkpoints
        = cps.drop (cps.length - K)) ∧
    (∀ (rb : RollbackManager) (id : String),
      (∀ cp ∈ rb.checkpoints, cp.node_id ≠ id) →
      rollback_to_node rb id = (none, rb)) := by
  refine ⟨fun K ops => ?_, fun K cps => ?_, fun rb id h => ?_⟩
  · exact foldl_applyRbOp_inv ops { max_checkpoints := K } (by simp)
  · have := foldl_save_shape cps [] { max_checkpoints := K } (by simp)
    simpa using this
  · simp only [rollback_to_node, scanBack_eq_none_of_no_match id rb.checkpoints h]

/-- Witness for C4: save 11 checkpoints into a capacity-10 manager; the
first checkpoint (node n0) is evicted, and rolling back to n0 returns
`none` with the manager unchanged. -/
theorem C4_checkpoint_history_bounded_witness :
    rollback_to_node
      (((List.range 11).map
          (fun i => ({ node_id := "n" ++ toString i, step := i } : Checkpoint))).foldl
        save_checkpoint { max_checkpoints := 10 }) "n0"
    = (none,
      ((List.range 11).map
          (fun i => ({ node_id := "n" ++ toString i, step := i } : Checkpoint))).foldl
        save_checkpoint { max_checkpoints := 10 }) :=
  C4_checkpoint_history_bounded.2.2 _ "n0" (by decide)

/-! ### C6: repair exhaustion returns the original result -/

lemma attemptRepairGo_exhaust (failure_type : FailureType) (repair_ok : Nat → Bool)
    (sub_result : Nat → ExecResult) (initial : ExecResult) :
    ∀ (fuel start : Nat),
      (∀ i, start ≤ i → i < start + fuel →
        select_repair_strategy failure_type i = none ∨ repair_ok i = false ∨
        (sub_result i).success = false) →
      attemptRepairGo failure_type repair_ok sub_result initial fuel start = initial := by
  intro fuel
  induction fuel with
  | zero => intro start _; rfl
  | succ n ih =>
    intro start h
    simp only [attemptRepairGo]
    cases hsel : select_repair_strategy failure_type start with
    | none => rfl
    | some strat =>
      have hstart := h start (le_refl _) (by omega)
      rw [hsel] at hstart
      rcases hstart with hc | hro | hsub
      · exact absurd hc (by simp)
      · rw [hro]
        simp only [Bool.false_eq_true, if_false]
        exact ih (start + 1) fun i h1 h2 => h i (by omega) (by omega)
      · cases hro : repair_ok start with
        | false =>
          simp only [Bool.false_eq_true, if_false]
          exact ih (start + 1) fun i h1 h2 => h i (by omega) (by omega)
        | true =>
          simp only [if_true, hsub, Bool.false_eq_true, if_false]
          exact ih (start + 1) fun i h1 h2 => h i (by omega) (by omega)

/-- C6: if every attempt of the bounded repair loop either finds no
strategy for its index, fails to apply its repair, or fails its sub-pass
re-execution — in particular when all attempts are exhausted or no strategy
exists for the current index — `_attempt_repair` returns the original
pre-repair failure result itself, unchanged in every field; the embedded
loop is a total function, so exhaustion never raises. -/
theorem C6_exhaustion_returns_original :
    ∀ (max_attempts : Nat) (failure_type : FailureType) (repair_ok : Nat → Bool)
      (sub_result : Nat → ExecResult) (initial : ExecResult),
      (∀ i, i < max_attempts →
        select_repair_strategy failure_type i = none ∨ repair_ok i = false ∨
        (sub_result i).success = false) →
      attempt_repair max_attempts failure_type repair_ok sub_result initial = initial :=
  fun max_attempts failure_type repair_ok sub_result initial h =>
    attemptRepairGo_exhaust failure_type repair_ok sub_result initial max_attempts 0
      fun i _ h2 => h i (by omega)

/-- Witness for C6: three attempts on a GROUNDING failure where every
repair application fails return the original failure result unchanged. -/
theorem C6_exhaustion_returns_original_witness :
    attempt_repair 3 FailureType.GROUNDING_FAIL (fun _ => false)
      (fun _ => { success := false })
      { success := false, failed_node := some "n1", error := some "验证未通过" }
    = { success := false, failed_node := some "n1", error := some "验证未通过" } :=
  C6_exhaustion_returns_original 3 FailureType.GROUNDING_FAIL (fun _ => false)
    (fun _ => { success := false })
    { success := false, failed_node := some "n1", error := some "验证未通过" }
    (fun i _ => Or.inr (Or.inl rfl))

/-! ### Reachability: paths along the edge list -/

/-- A directed path of length `n` along the graph's edges. -/
inductive EdgePath (edges : List (String × String)) : String → String → Nat → Prop
  | refl (u : String) : EdgePath edges u u 0
  | step {u v w : String} {n : Nat} :
      (u, v) ∈ edges → EdgePath edges v w n → EdgePath edges u w (n + 1)

lemma mem_parentsOf {edges : List (String × String)} {u v : String} :
    u ∈ parentsOf edges v ↔ (u, v) ∈ edges := by
  simp only [parentsOf, List.mem_map, List.mem_filter]
  constructor
  · rintro ⟨e, ⟨he, hv⟩, hu⟩
    have : e = (u, v) := by
      cases e
      simp only [decide_eq_true_eq] at hv
      simp_all
    rwa [this] at he
  · intro h
    exact ⟨(u, v), ⟨h, by simp⟩, rfl⟩

lemma mem_childrenOf {edges : List (String × String)} {u c : String} :
    c ∈ childrenOf edges u ↔ (u, c) ∈ edges := by
  simp only [childrenOf, List.mem_map, List.mem_filter]
  constructor
  · rintro ⟨e, ⟨he, hv⟩, hu⟩
    have : e = (u, c) := by
      cases e
      simp only [decide_eq_true_eq] at hv
      simp_all
    rwa [this] at he
  · intro h
    exact ⟨(u, c), ⟨h, by simp⟩, rfl⟩

lemma edgePath_one {edges : List (String × String)} {u v : String} :
    EdgePath edges u v 1 ↔ (u, v) ∈ edges := by
  constructor
  · intro h
    cases h with
    | step he hp => cases hp; exact he
  · intro h
    exact EdgePath.step h (EdgePath.refl v)

lemma EdgePath.snoc {edges : List (String × String)} {u v w : String} {n : Nat}
    (hp : EdgePath edges u v n) (he : (v, w) ∈ edges) : EdgePath edges u w (n + 1) := by
  induction hp with
  | refl => exact EdgePath.step he (EdgePath.refl w)
  | step he' _ ih => exact EdgePath.step he' (ih he)

/-- Last-step decomposition of a nonempty path. -/
lemma edgePath_succ {edges : List (String × String)} :
    ∀ {n : Nat} {u w : String}, EdgePath edges u w (n + 1) →
      ∃ v, EdgePath edges u v n ∧ (v, w) ∈ edges := by
  intro n
  induction n with
  | zero =>
    intro u w h
    cases h with
    | step he hp => cases hp; exact ⟨u, EdgePath.refl u, he⟩
  | succ m ih =>
    intro u w h
    cases h with
    | step he hp =>
      obtain ⟨v, hv, hvw⟩ := ih hp
      exact ⟨v, EdgePath.step he hv, hvw⟩

/-! ### `_find_ancestors` = backward reachability within `depth` hops -/

lemma mem_ancGo {edges : List (String × String)} :
    ∀ (d : Nat) (cur : List String) (u : String),
      u ∈ ancGo edges d cur ↔
        ∃ n, 1 ≤ n ∧ n ≤ d ∧ ∃ w ∈ cur, EdgePath edges u w n := by
  intro d
  induction d with
  | zero =>
    intro cur u
    simp only [ancGo, List.not_mem_nil, false_iff]
    rintro ⟨n, h1, h2, _⟩
    omega
  | succ m ih =>
    intro cur u
    simp only [ancGo, List.mem_append, ih, List.mem_flatMap]
    constructor
    · rintro (⟨w, hw, hu⟩ | ⟨n, h1, h2, w', ⟨⟨w, hw, hw'⟩, hp⟩⟩)
      · exact ⟨1, le_refl _, by omega, w, hw, edgePath_one.mpr (mem_parentsOf.mp hu)⟩
      · exact ⟨n + 1, by omega, by omega, w, hw, hp.snoc (mem_parentsOf.mp hw')⟩
    · rintro ⟨n, h1, h2, w, hw, hp⟩
      cases n with
      | zero => omega
      | succ k =>
        obtain ⟨v, hv, hvw⟩ := edgePath_succ hp
        cases k with
        | zero =>
          cases hv
          exact Or.inl ⟨w, hw, mem_parentsOf.mpr hvw⟩
        | succ k' =>
          refine Or.inr ⟨k' + 1, by omega, by omega, v, ⟨w, hw, mem_parentsOf.mpr hvw⟩, hv⟩

/-- `_find_ancestors` membership: exactly the nodes with a backward path of
between 1 and `depth` hops to `node_id`. -/
lemma mem_find_ancestors {edges : List (String × String)} {node_id : String} {depth : Nat}
    {u : String} :
    u ∈ find_ancestors edges node_id depth ↔
      ∃ n, 1 ≤ n ∧ n ≤ depth ∧ EdgePath edges u node_id n := by
  simp only [find_ancestors, List.mem_dedup, mem_ancGo, List.mem_singleton]
  constructor
  · rintro ⟨n, h1, h2, w, rfl, hp⟩
    exact ⟨n, h1, h2, hp⟩
  · rintro ⟨n, h1, h2, hp⟩
    exact ⟨n, h1, h2, node_id, rfl, hp⟩

/-! ### `_find_descendants` = forward reachability -/

lemma dfsRun_sound (edges : List (String × String)) :
    ∀ (fuel : Nat) (stack : List String) (st : List String × List String),
      st.1 ⊆ (dfsRun edges fuel stack st).1 ∧
      st.2 ⊆ (dfsRun edges fuel stack st).2 ∧
      (∀ w ∈ (dfsRun edges fuel stack st).1,
        w ∈ st.1 ∨ ∃ s ∈ stack, ∃ n, EdgePath edges s w n) ∧
      (∀ d ∈ (dfsRun edges fuel stack st).2,
        d ∈ st.2 ∨ ∃ w ∈ (dfsRun edges fuel stack st).1, (w, d) ∈ edges) := by
  intro fuel
  induction fuel with
  | zero =>
    intro stack st
    exact ⟨fun _ h => h, fun _ h => h, fun w hw => Or.inl hw, fun d hd => Or.inl hd⟩
  | succ n ih =>
    intro stack st
    match stack with
    | [] =>
      exact ⟨fun _ h => h, fun _ h => h, fun w hw => Or.inl hw, fun d hd => Or.inl hd⟩
    | u :: stack' =>
      by_cases hu : u ∈ st.1
      · simp only [dfsRun, if_pos hu]
        obtain ⟨h1, h2, h3, h4⟩ := ih stack' st
        refine ⟨h1, h2, fun w hw => ?_, h4⟩
        rcases h3 w hw with h | ⟨s, hs, hp⟩
        · exact Or.inl h
        · exact Or.inr ⟨s, List.mem_cons_of_mem _ hs, hp⟩
      · simp only [dfsRun, if_neg hu]
        obtain ⟨h1, h2, h3, h4⟩ :=
          ih (childrenOf edges u ++ stack') (u :: st.1, st.2 ++ childrenOf edges u)
        refine ⟨fun x hx => h1 (List.mem_cons_of_mem _ hx),
          fun x hx => h2 (List.mem_append_left _ hx), fun w hw => ?_, fun d hd => ?_⟩
        · rcases h3 w hw with h | ⟨s, hs, m, hp⟩
          · rcases List.mem_cons.mp h with rfl | h
            · exact Or.inr ⟨w, List.mem_cons_self _ _, 0, EdgePath.refl w⟩
            · exact Or.inl h
          · rcases List.mem_append.mp hs with hc | hst
            · exact Or.inr ⟨u, List.mem_cons_self _ _, m + 1,
                EdgePath.step (mem_childrenOf.mp hc) hp⟩
            · exact Or.inr ⟨s, List.mem_cons_of_mem _ hst, m, hp⟩
        · rcases h4 d hd with h | h
          · rcases List.mem_append.mp h with hst | hc
            · exact Or.inl hst
            · exact Or.inr ⟨u, h1 (List.mem_cons_self _ _), mem_childrenOf.mp hc⟩
          · exact Or.inr h

/-- The termination potential of the DFS worklist: pending pops plus the
future pushes (children of still-unvisited nodes of the universe `U`). -/
def dfsPot (edges : List (String × String)) (U vis stack : List String) : Nat :=
  stack.length +
    (((U.filter fun w => decide (w ∉ vis)).map fun w => (childrenOf edges w).length).sum)

lemma sum_map_add (l : List String) (f g : String → Nat) :
    ((l.map fun x => f x + g x)).sum = (l.map f).sum + (l.map g).sum := by
  induction l with
  | nil => simp
  | cons a l ih => simp [ih]; omega

lemma sum_ite_zero (a : String) :
    ∀ U : List String, a ∉ U → ((U.map fun w => if a = w then 1 else 0).sum = 0) := by
  intro U
  induction U with
  | nil => simp
  | cons b U ih =>
    intro h
    have hb : a ≠ b := fun hab => h (hab ▸ List.mem_cons_self _ _)
    simp only [List.map_cons, List.sum_cons, if_neg hb]
    simpa using ih fun hm => h (List.mem_cons_of_mem _ hm)

lemma sum_ite_le_one (a : String) :
    ∀ U : List String, U.Nodup → ((U.map fun w => if a = w then 1 else 0).sum ≤ 1) := by
  intro U
  induction U with
  | nil => simp
  | cons b U ih =>
    intro hnd
    simp only [List.map_cons, List.sum_cons]
    by_cases hab : a = b
    · rw [if_pos hab, sum_ite_zero a U (hab ▸ (List.nodup_cons.mp hnd).1)]
    · rw [if_neg hab]
      simpa using ih (List.nodup_cons.mp hnd).2

lemma sum_children_le (edges : List (String × String)) :
    ∀ (U : List String), U.Nodup →
      ((U.map fun w => (childrenOf edges w).length)).sum ≤ edges.length := by
  induction edges with
  | nil =>
    intro U _
    have : (U.map fun w => (childrenOf ([] : List (String × String)) w).length)
        = U.map fun _ => 0 := by
      apply List.map_congr_left
      intro w _
      simp [childrenOf]
    simp [this]
  | cons e es ih =>
    intro U hU
    have hsplit : (U.map fun w => (childrenOf (e :: es) w).length)
        = U.map fun w => (childrenOf es w).length + (if e.1 = w then 1 else 0) := by
      apply List.map_congr_left
      intro w _
      simp only [childrenOf, List.filter_cons]
      by_cases h : e.1 = w
      · rw [if_pos (by simpa using h), if_pos h]
        simp
      · rw [if_neg (by simpa using h), if_neg h]
        simp
    rw [hsplit, sum_map_add]
    have h1 := ih U hU
    have h2 := sum_ite_le_one e.1 U hU
    simp only [List.length_cons]
    omega

lemma sum_filter_cons_vis (edges : List (String × String)) :
    ∀ (U : List String) (u : String) (vis : List String), U.Nodup → u ∈ U → u ∉ vis →
      (((U.filter fun w => decide (w ∉ vis)).map fun w => (childrenOf edges w).length).sum)
        = (((U.filter fun w => decide (w ∉ u :: vis)).map
            fun w => (childrenOf edges w).length).sum) + (childrenOf edges u).length := by
  intro U
  induction U with
  | nil => intro u vis _ hu _; cases hu
  | cons a U ih =>
    intro u vis hnd hu hvis
    rcases List.mem_cons.mp hu with rfl | hmem
    · have hU : u ∉ U := (List.nodup_cons.mp hnd).1
      simp only [List.filter_cons]
      rw [if_pos (by simpa using hvis), if_neg (by simp)]
      simp only [List.map_cons, List.sum_cons]
      have hcong : U.filter (fun w => decide (w ∉ vis))
          = U.filter fun w => decide (w ∉ u :: vis) := by
        apply List.filter_congr
        intro w hw
        have hwu : w ≠ u := fun h => hU (h ▸ hw)
        simp [List.mem_cons, hwu]
      rw [hcong]
      omega
    · have hnd' := (List.nodup_cons.mp hnd).2
      have hau : a ≠ u := fun h => (List.nodup_cons.mp hnd).1 (h ▸ hmem)
      by_cases hav : a ∈ vis
      · have hav' : a ∈ u :: vis := List.mem_cons_of_mem _ hav
        rw [List.filter_cons, List.filter_cons, if_neg (by simpa using hav),
          if_neg (by simp [hav])]
        exact ih u vis hnd' hmem hvis
      · have hav' : a ∉ u :: vis := by
          simp [List.mem_cons, hau, hav]
        rw [List.filter_cons, List.filter_cons, if_pos (by simpa using hav),
          if_pos (by simpa using hav')]
        simp only [List.map_cons, List.sum_cons]
        rw [ih u vis hnd' hmem hvis]
        omega

lemma dfsRun_closure (edges : List (String × String)) (U : List String) (hU : U.Nodup)
    (htgt : ∀ e ∈ edges, e.2 ∈ U) :
    ∀ (fuel : Nat) (stack : List String) (st : List String × List String),
      (∀ s ∈ stack, s ∈ U) →
      dfsPot edges U st.1 stack < fuel →
      (∀ s ∈ stack, s ∈ (dfsRun edges fuel stack st).1) ∧
      (∀ w ∈ (dfsRun edges fuel stack st).1, w ∉ st.1 →
        ∀ c ∈ childrenOf edges w,
          c ∈ (dfsRun edges fuel stack st).1 ∧ c ∈ (dfsRun edges fuel stack st).2) := by
  intro fuel
  induction fuel with
  | zero =>
    intro stack st _ hpot
    exact absurd hpot (by omega)
  | succ n ih =>
    intro stack st hstack hpot
    match stack with
    | [] =>
      refine ⟨fun s hs => absurd hs (List.not_mem_nil s), fun w hw hnw c _ => ?_⟩
      exact absurd hw hnw
    | u :: stack' =>
      by_cases hu : u ∈ st.1
      · simp only [dfsRun, if_pos hu]
        have hpot' : dfsPot edges U st.1 stack' < n := by
          simp only [dfsPot, List.length_cons] at hpot ⊢
          omega
        obtain ⟨h1, h2⟩ := ih stack' st (fun s hs => hstack s (List.mem_cons_of_mem _ hs)) hpot'
        refine ⟨fun s hs => ?_, h2⟩
        rcases List.mem_cons.mp hs with rfl | hs'
        · exact (dfsRun_sound edges n stack' st).1 hu
        · exact h1 s hs'
      · simp only [dfsRun, if_neg hu]
        have huU : u ∈ U := hstack u (List.mem_cons_self _ _)
        have hch : ∀ s ∈ childrenOf edges u ++ stack', s ∈ U := by
          intro s hs
          rcases List.mem_append.mp hs with hc | hst
          · obtain ⟨e, he, rfl⟩ : ∃ e ∈ edges, e.2 = s := by
              have := mem_childrenOf.mp hc
              exact ⟨(u, s), this, rfl⟩
            exact htgt _ he
          · exact hstack s (List.mem_cons_of_mem _ hst)
        have hpot' : dfsPot edges U (u :: st.1) (childrenOf edges u ++ stack') < n := by
          have hsum := sum_filter_cons_vis edges U u st.1 hU huU hu
          simp only [dfsPot, List.length_cons, List.length_append] at hpot ⊢
          omega
        obtain ⟨h1, h2⟩ := ih (childrenOf edges u ++ stack')
          (u :: st.1, st.2 ++ childrenOf edges u) hch hpot'
        obtain ⟨hs1, hs2, _, _⟩ := dfsRun_sound edges n (childrenOf edges u ++ stack')
          (u :: st.1, st.2 ++ childrenOf edges u)
        refine ⟨fun s hs => ?_, fun w hw hnw c hc => ?_⟩
        · rcases List.mem_cons.mp hs with rfl | hs'
          · exact hs1 (List.mem_cons_self _ _)
          · exact h1 s (List.mem_append_right _ hs')
        · by_cases hwu : w = u
          · subst hwu
            refine ⟨h1 c (List.mem_append_left _ hc), hs2 (List.mem_append_right _ hc)⟩
          · have : w ∉ u :: st.1 := by
              simp [List.mem_cons, hwu, hnw]
            exact h2 w hw this c hc

/-- `_find_descendants` membership: exactly the nodes with a forward path
of at least one hop from `node_id`. -/
lemma mem_find_descendants {edges : List (String × String)} {node_id v : String} :
    v ∈ find_descendants edges node_id ↔ ∃ n, 1 ≤ n ∧ EdgePath edges node_id v n := by
  constructor
  · intro hv
    obtain ⟨_, _, h3, h4⟩ := dfsRun_sound edges (edges.length + 2) [node_id] ([], [])
    rcases h4 v hv with h | ⟨w, hw, hwv⟩
    · cases h
    · rcases h3 w hw with h | ⟨s, hs, m, hp⟩
      · cases h
      · rcases List.mem_singleton.mp hs with rfl
        exact ⟨m + 1, by omega, hp.snoc hwv⟩
  · rintro ⟨n, hn, hp⟩
    have hU : ((node_id :: edges.map Prod.snd).dedup).Nodup := List.nodup_dedup _
    have htgt : ∀ e ∈ edges, e.2 ∈ (node_id :: edges.map Prod.snd).dedup := by
      intro e he
      rw [List.mem_dedup]
      exact List.mem_cons_of_mem _ (List.mem_map_of_mem _ he)
    have hstack : ∀ s ∈ [node_id], s ∈ (node_id :: edges.map Prod.snd).dedup := by
      intro s hs
      rcases List.mem_singleton.mp hs with rfl
      rw [List.mem_dedup]
      exact List.mem_cons_self _ _
    have hpot : dfsPot edges ((node_id :: edges.map Prod.snd).dedup) [] [node_id]
        < edges.length + 2 := by
      have hflt : ((node_id :: edges.map Prod.snd).dedup).filter
          (fun w => decide (w ∉ ([] : List String)))
          = (node_id :: edges.map Prod.snd).dedup := by
        apply List.filter_eq_self.mpr
        intro a _
        simp
      have hsum := sum_children_le edges ((node_id :: edges.map Prod.snd).dedup)
        (List.nodup_dedup _)
      simp only [dfsPot, hflt, List.length_singleton]
      omega
    obtain ⟨h1, h2⟩ := dfsRun_closure edges _ hU htgt (edges.length + 2) [node_id]
      ([], []) hstack hpot
    have hroot : node_id ∈ (dfsRun edges (edges.length + 2) [node_id] ([], [])).1 :=
      h1 node_id (List.mem_singleton.mpr rfl)
    -- walk the path through the closed visited set
    have hwalk : ∀ (m : Nat) (a b : String), EdgePath edges a b m →
        a ∈ (dfsRun edges (edges.length + 2) [node_id] ([], [])).1 →
        b ∈ (dfsRun edges (edges.length + 2) [node_id] ([], [])).1 ∧
        (1 ≤ m → b ∈ (dfsRun edges (edges.length + 2) [node_id] ([], [])).2) := by
      intro m
      induction m with
      | zero =>
        intro a b hp ha
        cases hp
        exact ⟨ha, fun h => absurd h (by omega)⟩
      | succ k ihm =>
        intro a b hp ha
        cases hp with
        | step he hp' =>
          rename_i c
          have hc := h2 a ha (fun h => absurd h (List.not_mem_nil a)) c (mem_childrenOf.mpr he)
          cases k with
          | zero =>
            cases hp'
            exact ⟨hc.1, fun _ => hc.2⟩
          | succ k' =>
            obtain ⟨hb1, hb2⟩ := ihm c b hp' hc.1
            exact ⟨hb1, fun _ => hb2 (by omega)⟩
    exact ((hwalk n node_id v hp hroot).2 hn)

lemma anyBeq_mem {l : List String} {a : String} :
    ((l.any fun x => a == x) = true) ↔ a ∈ l := by
  simp only [List.any_eq_true, beq_iff_eq]
  constructor
  · rintro ⟨x, hx, rfl⟩
    exact hx
  · intro h
    exact ⟨a, h, rfl⟩

/-- C2 (counterexample): on the second repair attempt (index 1) for a
STATE failure the loop's selected strategy has rollback depth 1, but the
subgraph computation — which always consults the strategy at attempt
index 0 — returns depth 0, contradicting the claim that the computed
depth is the chosen attempt's strategy depth (the claim's own example
expects 1 here). -/
theorem C2_counterexample :
    (select_repair_strategy FailureType.STATE_FAIL 1).map RepairStrategy.rollback_depth
      = some 1 ∧
    (compute_rollback_subgraph
        { nodes := [{ id := "a", type := "NAVIGATE" }, { id := "b", type := "ACT" }],
          edges := [("a", "b")] } "b" FailureType.STATE_FAIL).map Prod.snd
      = Except.ok 0 := by
  constructor <;> rfl

/-- C2 (amended): for every graph, failed node and failure type with at
least one strategy, the computed rollback pair uses the strategy at
attempt index 0 — irrespective of the current repair attempt: the depth
is that strategy's rollback depth, and the node list is the topological
order restricted to (backward-reachable nodes within that many hops) ∪
(the failed node) ∪ (all forward-reachable nodes). -/
theorem C2_rollback_subgraph_amended :
    ∀ (g : TaskGraph) (f : String) (ft : FailureType) (strat : RepairStrategy)
      (res : List String × Nat),
      select_repair_strategy ft 0 = some strat →
      compute_rollback_subgraph g f ft = Except.ok res →
      res.2 = strat.rollback_depth ∧
      ∃ topo, get_topological_order g.nodes g.edges = Except.ok topo ∧
        res.1.Sublist topo ∧
        ∀ x, x ∈ res.1 ↔ x ∈ topo ∧
          ((∃ n, 1 ≤ n ∧ n ≤ strat.rollback_depth ∧ EdgePath g.edges x f n) ∨ x = f ∨
           ∃ n, 1 ≤ n ∧ EdgePath g.edges f x n) := by
  intro g f ft strat res hsel hres
  rw [compute_rollback_subgraph, hsel] at hres
  cases htopo : get_topological_order g.nodes g.edges with
  | error e =>
    rw [htopo] at hres
    cases hres
  | ok topo =>
    rw [htopo] at hres
    simp only [Except.map] at hres
    cases hres
    refine ⟨rfl, topo, rfl, List.filter_sublist _, fun x => ?_⟩
    rw [List.mem_filter]
    constructor
    · rintro ⟨hx, hmem⟩
      rw [List.contains_eq_any_beq] at hmem
      have hmem' : x ∈ (find_ancestors g.edges f strat.rollback_depth ++ [f])
          ++ find_descendants g.edges f := anyBeq_mem.mp hmem
      refine ⟨hx, ?_⟩
      rcases List.mem_append.mp hmem' with h | h
      · rcases List.mem_append.mp h with h' | h'
        · exact Or.inl (mem_find_ancestors.mp h')
        · exact Or.inr (Or.inl (List.mem_singleton.mp h'))
      · exact Or.inr (Or.inr (mem_find_descendants.mp h))
    · rintro ⟨hx, hcase⟩
      refine ⟨hx, ?_⟩
      rw [List.contains_eq_any_beq]
      rw [anyBeq_mem]
      rcases hcase with h | rfl | h
      · exact List.mem_append_left _ (List.mem_append_left _ (mem_find_ancestors.mpr h))
      · exact List.mem_append_left _ (List.mem_append_right _ (List.mem_singleton.mpr rfl))
      · exact List.mem_append_right _ (mem_find_descendants.mpr h)

/-- Witness for the amended C2 theorem: on the chain a → b → c with a PLAN
failure at b (strategy depth 2), the computed subgraph is the full chain
at depth 2. -/
theorem C2_rollback_subgraph_amended_witness :
    ((["a", "b", "c"], 2) : List String × Nat).2
        = (RepairStrategy.mk FailureType.PLAN_FAIL "回滚至COLLECT" ["rollback_to_collect"] 2).rollback_depth
      ∧ ∃ topo, get_topological_order
          [{ id := "a", type := "NAVIGATE" }, { id := "b", type := "ACT" },
            { id := "c", type := "EXTRACT" }]
          [("a", "b"), ("b", "c")] = Except.ok topo ∧
        (["a", "b", "c"] : List String).Sublist topo ∧
        ∀ x, x ∈ (["a", "b", "c"] : List String) ↔ x ∈ topo ∧
          ((∃ n, 1 ≤ n ∧ n ≤ 2 ∧ EdgePath [("a", "b"), ("b", "c")] x "b" n) ∨ x = "b" ∨
           ∃ n, 1 ≤ n ∧ EdgePath [("a", "b"), ("b", "c")] "b" x n) :=
  C2_rollback_subgraph_amended
    { nodes := [{ id := "a", type := "NAVIGATE" }, { id := "b", type := "ACT" },
        { id := "c", type := "EXTRACT" }],
      edges := [("a", "b"), ("b", "c")] }
    "b" FailureType.PLAN_FAIL
    ⟨FailureType.PLAN_FAIL, "回滚至COLLECT", ["rollback_to_collect"], 2⟩
    (["a", "b", "c"], 2) rfl rfl

/-! ### Kahn's algorithm: counting helpers -/

lemma countP_lt_of_witness {α : Type} {l : List α} {p q : α → Bool}
    (himp : ∀ a ∈ l, q a = true → p a = true) {a : α} (ha : a ∈ l)
    (hpa : p a = true) (hqa : q a = false) : l.countP q < l.countP p := by
  induction l with
  | nil => cases ha
  | cons b l ih =>
    have hmono : l.countP q ≤ l.countP p :=
      List.countP_mono_left fun x hx => himp x (List.mem_cons_of_mem _ hx)
    rcases List.mem_cons.mp ha with rfl | ha'
    · simp only [List.countP_cons, hpa, hqa, Bool.false_eq_true, if_false, if_true]
      omega
    · have hlt := ih (fun x hx => himp x (List.mem_cons_of_mem _ hx)) ha'
      have hb : (if q b = true then 1 else 0) ≤ (if p b = true then 1 else 0) := by
        by_cases hq : q b = true
        · rw [if_pos hq, if_pos (himp b (List.mem_cons_self _ _) hq)]
        · rw [if_neg hq]; omega
      simp only [List.countP_cons]
      omega

lemma countP_add_le_of_disjoint {α : Type} {l : List α} {p q r : α → Bool}
    (himpq : ∀ a ∈ l, q a = true → p a = true)
    (himpr : ∀ a ∈ l, r a = true → p a = true)
    (hdisj : ∀ a ∈ l, ¬(q a = true ∧ r a = true)) :
    l.countP q + l.countP r ≤ l.countP p := by
  induction l with
  | nil => simp
  | cons b l ih =>
    have ih' := ih (fun x hx => himpq x (List.mem_cons_of_mem _ hx))
      (fun x hx => himpr x (List.mem_cons_of_mem _ hx))
      (fun x hx => hdisj x (List.mem_cons_of_mem _ hx))
    have hb := hdisj b (List.mem_cons_self _ _)
    simp only [List.countP_cons]
    by_cases hq : q b = true
    · have hp : p b = true := himpq b (List.mem_cons_self _ _) hq
      have hr : ¬ r b = true := fun hr' => hb ⟨hq, hr'⟩
      simp only [hq, hp, if_true, if_neg hr]
      omega
    · by_cases hr : r b = true
      · have hp : p b = true := himpr b (List.mem_cons_self _ _) hr
        simp only [hr, hp, if_true, if_neg hq]
        omega
      · simp only [if_neg hq, if_neg hr]
        by_cases hp : p b = true
        · simp only [hp, if_true]; omega
        · simp only [if_neg hp]; omega

lemma count_adjOf (edges : List (String × String)) (u v : String) :
    (adjOf edges u).count v = edges.countP fun e => e.1 = u ∧ e.2 = v := by
  induction edges with
  | nil => rfl
  | cons e es ih =>
    simp only [adjOf] at ih ⊢
    rw [List.filter_cons, List.countP_cons]
    by_cases h1 : e.1 = u
    · rw [if_pos (by simpa using h1), List.map_cons, List.count_cons, ih]
      by_cases h2 : e.2 = v
      · rw [if_pos (by simpa using h2), if_pos (by simp [h1, h2])]
      · rw [if_neg (by simpa using h2), if_neg (by simp [h2])]
    · rw [if_neg (by simpa using h1), ih, if_neg (by simp [h1]), Nat.add_zero]

/-- `processAdj` output: each entry of `vs` decrements its in-degree, and
the queue is extended (at the back) by exactly the entries whose running
in-degree reaches 0 — characterized by `1 ≤ indeg v ≤ (count of v in vs)`,
each pushed once. -/
lemma processAdj_spec :
    ∀ (vs : List String) (indeg : String → Int) (queue : List String),
      ((processAdj vs indeg queue).1 = fun v => indeg v - (vs.count v : Int)) ∧
      ∃ pushed : List String,
        (processAdj vs indeg queue).2 = queue ++ pushed ∧
        pushed.Nodup ∧
        (∀ v, v ∈ pushed ↔ 1 ≤ indeg v ∧ indeg v ≤ (vs.count v : Int)) := by
  intro vs
  induction vs with
  | nil =>
    intro indeg queue
    refine ⟨by funext v; simp [processAdj], [], by simp [processAdj], List.nodup_nil,
      fun v => ?_⟩
    simp only [List.not_mem_nil, List.count_nil, Nat.cast_zero, false_iff]
    omega
  | cons v0 vs ih =>
    intro indeg queue
    have hcnt : ∀ v : String,
        (((v0 :: vs).count v : Int)) = (vs.count v : Int) + (if v = v0 then 1 else 0) := by
      intro v
      rw [List.count_cons]
      by_cases h : v = v0
      · rw [if_pos (by simp [h]), if_pos h]
        push_cast
        ring
      · rw [if_neg (by simpa using fun hh => h hh.symm), if_neg h]
        push_cast
        ring
    simp only [processAdj]
    obtain ⟨hdeg, pushed2, hq2, hnd2, hmem2⟩ :=
      ih (Function.update indeg v0 (indeg v0 - 1))
        (if indeg v0 - 1 = 0 then queue ++ [v0] else queue)
    constructor
    · rw [hdeg]
      funext v
      rw [hcnt v]
      by_cases hv : v = v0
      · subst hv
        rw [Function.update_same, if_pos rfl]
        ring
      · rw [Function.update_noteq hv, if_neg hv]
        ring
    · by_cases h0 : indeg v0 - 1 = 0
      · simp only [if_pos h0] at hq2 hmem2 ⊢
        refine ⟨v0 :: pushed2, by rw [hq2]; simp, ?_, fun v => ?_⟩
        · rw [List.nodup_cons]
          refine ⟨fun hmem => ?_, hnd2⟩
          have := (hmem2 v0).mp hmem
          rw [Function.update_same] at this
          omega
        · rw [List.mem_cons, hmem2 v, hcnt v]
          by_cases hvv : v = v0
          · subst hvv
            rw [Function.update_same, if_pos rfl]
            simp only [true_or, true_iff]
            omega
          · rw [Function.update_noteq hvv, if_neg hvv]
            simp only [hvv, false_or]
            omega
      · simp only [if_neg h0] at hq2 hmem2 ⊢
        refine ⟨pushed2, hq2, hnd2, fun v => ?_⟩
        rw [hmem2 v, hcnt v]
        by_cases hvv : v = v0
        · subst hvv
          rw [Function.update_same, if_pos rfl]
          omega
        · rw [Function.update_noteq hvv, if_neg hvv]
          omega

/-! ### Kahn's algorithm: the loop invariant -/

/-- The number of in-edges of `v` whose source has not yet been emitted;
this is the value the running `in_degree` entry of `v` always holds. -/
def pendingDeg (edges : List (String × String)) (result : List String) (v : String) : Int :=
  (edges.countP (fun e => e.2 = v) : Int) - (edges.countP (fun e => e.2 = v ∧ e.1 ∈ result) : Int)

lemma initIndeg_eq_countP (edges : List (String × String)) (v : String) :
    initIndeg edges v = (edges.countP fun e => e.2 = v : Int) := by
  simp [initIndeg, List.countP_eq_length_filter]

lemma pendingDeg_nonneg (edges : List (String × String)) (result : List String) (v : String) :
    0 ≤ pendingDeg edges result v := by
  have h := List.countP_mono_left (l := edges)
    (p := fun e => decide (e.2 = v ∧ e.1 ∈ result)) (q := fun e => decide (e.2 = v))
    (fun e _ he => by
      simp only [decide_eq_true_eq] at he ⊢
      exact he.1)
  simp only [pendingDeg, sub_nonneg]
  exact_mod_cast h

lemma countP_eq_add_of_pointwise {α : Type} {l : List α} {p q r : α → Bool}
    (h : ∀ a ∈ l,
      (if p a then 1 else 0) = ((if q a then 1 else 0) + (if r a then 1 else 0) : Nat)) :
    l.countP p = l.countP q + l.countP r := by
  induction l with
  | nil => simp
  | cons b l ih =>
    have hb := h b (List.mem_cons_self _ _)
    have ih' := ih fun a ha => h a (List.mem_cons_of_mem _ ha)
    simp only [List.countP_cons]
    omega

lemma pendingDeg_snoc (edges : List (String × String)) (result : List String)
    (u : String) (hu : u ∉ result) (v : String) :
    pendingDeg edges (result ++ [u]) v
      = pendingDeg edges result v - ((adjOf edges u).count v : Int) := by
  have hsplit : edges.countP (fun e => e.2 = v ∧ e.1 ∈ result ++ [u])
      = edges.countP (fun e => e.2 = v ∧ e.1 ∈ result)
        + edges.countP (fun e => e.1 = u ∧ e.2 = v) := by
    apply countP_eq_add_of_pointwise
    intro e _
    by_cases h2 : e.2 = v
    · by_cases hr : e.1 ∈ result
      · have hne : e.1 ≠ u := fun h => hu (h ▸ hr)
        rw [if_pos (by simp [h2, hr]), if_pos (by simp [h2, hr]), if_neg (by simp [hne])]
      · by_cases h1 : e.1 = u
        · rw [if_pos (by simp [h2, h1]), if_neg (by simp [h2, hr]), if_pos (by simp [h1, h2])]
        · rw [if_neg (by simp [h2, hr, h1]), if_neg (by simp [h2, hr]), if_neg (by simp [h1])]
    · rw [if_neg (by simp [h2]), if_neg (by simp [h2]), if_neg (by simp [h2])]
  rw [pendingDeg, pendingDeg, count_adjOf, hsplit]
  push_cast
  ring

lemma sources_in_result_of_pending_zero {edges : List (String × String)}
    {result : List String} {v : String}
    (hpend : pendingDeg edges result v = 0) :
    ∀ e ∈ edges, e.2 = v → e.1 ∈ result := by
  intro e he h2
  by_contra hnr
  have hlt := countP_lt_of_witness (l := edges)
    (p := fun e => decide (e.2 = v)) (q := fun e => decide (e.2 = v ∧ e.1 ∈ result))
    (fun a _ ha => by
      simp only [decide_eq_true_eq] at ha ⊢
      exact ha.1)
    he (by simp [h2]) (by simp [h2, hnr])
  simp only [pendingDeg, sub_eq_zero] at hpend
  have : edges.countP (fun e => decide (e.2 = v ∧ e.1 ∈ result))
      = edges.countP (fun e => decide (e.2 = v)) := by exact_mod_cast hpend.symm
  omega

lemma count_adj_zero_of_pending_zero {edges : List (String × String)}
    {result : List String} {u v : String}
    (hpend : pendingDeg edges result v = 0) (hu : u ∉ result) :
    (adjOf edges u).count v = 0 := by
  rw [count_adjOf]
  rw [List.countP_eq_zero]
  rintro e he hev
  simp only [decide_eq_true_eq] at hev
  exact hu (hev.1 ▸ sources_in_result_of_pending_zero hpend e he hev.2)

lemma count_adj_le_pending {edges : List (String × String)} {result : List String}
    {u : String} (hu : u ∉ result) (v : String) :
    ((adjOf edges u).count v : Int) ≤ pendingDeg edges result v := by
  rw [count_adjOf, pendingDeg]
  have hle := countP_add_le_of_disjoint (l := edges)
    (p := fun e => decide (e.2 = v))
    (q := fun e => decide (e.2 = v ∧ e.1 ∈ result))
    (r := fun e => decide (e.1 = u ∧ e.2 = v))
    (fun a _ ha => by simp only [decide_eq_true_eq] at ha ⊢; exact ha.1)
    (fun a _ ha => by simp only [decide_eq_true_eq] at ha ⊢; exact ha.2)
    (fun a _ ⟨hq, hr⟩ => by
      simp only [decide_eq_true_eq] at hq hr
      exact hu (hr.1 ▸ hq.2))
  push_cast
  omega

lemma indexOf_append_self {u : String} :
    ∀ (l : List String), u ∉ l → (l ++ [u]).indexOf u = l.length := by
  intro l
  induction l with
  | nil => intro _; simp [List.indexOf_cons]
  | cons a l ih =>
    intro h
    have ha : ¬ (a == u) = true := by
      simp only [beq_iff_eq]
      rintro rfl
      exact h (List.mem_cons_self _ _)
    simp only [List.cons_append, List.indexOf_cons, ha, Bool.false_eq_true, cond_false,
      List.length_cons]
    rw [ih fun hm => h (List.mem_cons_of_mem _ hm)]

/-- The Kahn loop invariant over state (queue, result, in-degree map). -/
structure KahnInv (edges : List (String × String)) (ids : List String)
    (queue result : List String) (indeg : String → Int) : Prop where
  nodup : (result ++ queue).Nodup
  deg : ∀ v, indeg v = pendingDeg edges result v
  seen_zero : ∀ v ∈ result ++ queue, indeg v = 0
  unseen : ∀ v ∈ ids, v ∉ result ++ queue → indeg v ≠ 0
  prec : ∀ e ∈ edges, e.2 ∈ result →
    e.1 ∈ result ∧ result.indexOf e.1 < result.indexOf e.2
  src : ∀ v ∈ result ++ queue, v ∈ ids ∨ v ∈ edges.map Prod.snd

lemma kahnInv_init (edges : List (String × String)) (ids : List String)
    (hids : ids.Nodup) :
    KahnInv edges ids (seedQueue ids edges) [] (initIndeg edges) := by
  have hpend0 : ∀ v, pendingDeg edges ([] : List String) v = initIndeg edges v := by
    intro v
    rw [pendingDeg, initIndeg_eq_countP]
    have : edges.countP (fun e => e.2 = v ∧ e.1 ∈ ([] : List String)) = 0 := by
      rw [List.countP_eq_zero]
      intro e _ he
      simp at he
    rw [this]
    push_cast
    ring
  refine ⟨?_, fun v => (hpend0 v).symm, ?_, ?_, ?_, ?_⟩
  · simpa [seedQueue] using hids.filter _
  · intro v hv
    simp only [List.nil_append, seedQueue, List.mem_filter, decide_eq_true_eq] at hv
    exact hv.2
  · intro v hv hnv
    simp only [List.nil_append, seedQueue, List.mem_filter, decide_eq_true_eq, not_and] at hnv
    exact hnv hv
  · intro e _ h
    cases h
  · intro v hv
    simp only [List.nil_append, seedQueue, List.mem_filter] at hv
    exact Or.inl hv.1

lemma kahnInv_step (edges : List (String × String)) (ids : List String)
    (u : String) (rest result : List String) (indeg : String → Int)
    (hinv : KahnInv edges ids (u :: rest) result indeg) :
    KahnInv edges ids (processAdj (adjOf edges u) indeg rest).2 (result ++ [u])
      (processAdj (adjOf edges u) indeg rest).1 := by
  obtain ⟨hnd, hdeg, hzero, hunseen, hprec, hsrc⟩ := hinv
  obtain ⟨hdeg', pushed, hq, hpnd, hpmem⟩ := processAdj_spec (adjOf edges u) indeg rest
  have hndm : (u :: (result ++ rest)).Nodup := List.nodup_middle.mp hnd
  have hunr : u ∉ result ++ rest := (List.nodup_cons.mp hndm).1
  have hur : u ∉ result := fun h => hunr (List.mem_append_left _ h)
  have hurest : u ∉ rest := fun h => hunr (List.mem_append_right _ h)
  have hndrr : (result ++ rest).Nodup := (List.nodup_cons.mp hndm).2
  have hseen_pending : ∀ v, v ∈ result ++ u :: rest → pendingDeg edges result v = 0 := by
    intro v hv
    rw [← hdeg v]
    exact hzero v hv
  have hcnt0 : ∀ v, v ∈ result ++ u :: rest → (adjOf edges u).count v = 0 :=
    fun v hv => count_adj_zero_of_pending_zero (hseen_pending v hv) hur
  have hpfresh : ∀ v ∈ pushed, v ∉ result ++ u :: rest := by
    intro v hv hm
    have h1 := (hpmem v).mp hv
    have h2 := hzero v hm
    omega
  have hcle : ∀ v, ((adjOf edges u).count v : Int) ≤ indeg v := by
    intro v
    rw [hdeg v]
    exact count_adj_le_pending hur v
  rw [hdeg', hq]
  refine ⟨?_, ?_, ?_, ?_, ?_, ?_⟩
  · -- nodup
    rw [List.nodup_append] at hnd
    obtain ⟨hr, hc, hdisj⟩ := hnd
    have hcrest : rest.Nodup := (List.nodup_cons.mp hc).2
    rw [List.append_assoc, List.nodup_append]
    refine ⟨hr, ?_, ?_⟩
    · simp only [List.singleton_append, List.nodup_cons]
      refine ⟨?_, ?_⟩
      · intro h
        rcases List.mem_append.mp h with h | h
        · exact hurest h
        · exact hpfresh u h (by simp)
      · rw [List.nodup_append]
        refine ⟨hcrest, hpnd, fun a ha hap => ?_⟩
        exact hpfresh a hap (by simp [ha])
    · intro a ha hmem
      rcases List.mem_append.mp hmem with h | h
      · exact hur (List.mem_singleton.mp h ▸ ha)
      · rcases List.mem_append.mp h with h' | h'
        · exact hdisj ha (List.mem_cons_of_mem _ h')
        · exact hpfresh a h' (List.mem_append_left _ ha)
  · -- deg
    intro v
    rw [pendingDeg_snoc edges result u hur v, ← hdeg v]
  · -- seen_zero
    intro v hv
    simp only [List.append_assoc, List.singleton_append, List.mem_append,
      List.mem_cons] at hv
    rcases hv with hv | rfl | hv | hv
    · have h0 := hzero v (List.mem_append_left _ hv)
      have hc := hcnt0 v (List.mem_append_left _ hv)
      rw [hc]
      omega
    · have h0 := hzero v (by simp)
      have hc := hcnt0 v (by simp)
      rw [hc]
      omega
    · have h0 := hzero v (by simp [hv])
      have hc := hcnt0 v (by simp [hv])
      rw [hc]
      omega
    · have h1 := (hpmem v).mp hv
      have h2 := hcle v
      omega
  · -- unseen
    intro v hv hnv
    simp only [List.append_assoc, List.singleton_append, List.mem_append,
      List.mem_cons, not_or] at hnv
    obtain ⟨hnr, hne, hnrest, hnp⟩ := hnv
    have hold : v ∉ result ++ u :: rest := by
      simp [List.mem_append, List.mem_cons, hnr, hne, hnrest]
    have h1 := hunseen v hv hold
    have h2 : 0 ≤ indeg v := by
      rw [hdeg v]
      exact pendingDeg_nonneg edges result v
    have h3 : ¬ (1 ≤ indeg v ∧ indeg v ≤ ((adjOf edges u).count v : Int)) :=
      fun h => hnp ((hpmem v).mpr h)
    omega
  · -- prec
    intro e he h2
    rcases List.mem_append.mp h2 with h2r | h2u
    · obtain ⟨h1, hidx⟩ := hprec e he h2r
      refine ⟨List.mem_append_left _ h1, ?_⟩
      rw [List.indexOf_append_of_mem h1, List.indexOf_append_of_mem h2r]
      exact hidx
    · have h2u' : e.2 = u := List.mem_singleton.mp h2u
      have hpend_u : pendingDeg edges result u = 0 := hseen_pending u (by simp)
      have h1 : e.1 ∈ result :=
        sources_in_result_of_pending_zero (h2u' ▸ hpend_u) e he h2u'
      refine ⟨List.mem_append_left _ h1, ?_⟩
      rw [List.indexOf_append_of_mem h1, h2u', indexOf_append_self result hur]
      exact List.indexOf_lt_length.mpr h1
  · -- src
    intro v hv
    simp only [List.append_assoc, List.singleton_append, List.mem_append,
      List.mem_cons] at hv
    rcases hv with hv | rfl | hv | hv
    · exact hsrc v (List.mem_append_left _ hv)
    · exact hsrc v (by simp)
    · exact hsrc v (by simp [hv])
    · have h1 := (hpmem v).mp hv
      have hge : 1 ≤ (adjOf edges u).count v := by
        exact_mod_cast le_trans h1.1 h1.2
      have hvadj : v ∈ adjOf edges u := List.count_pos_iff_mem.mp (by omega)
      simp only [adjOf, List.mem_map, List.mem_filter] at hvadj
      obtain ⟨e, ⟨he, _⟩, rfl⟩ := hvadj
      exact Or.inr (List.mem_map_of_mem _ he)

lemma exists_of_countP_lt {α : Type} {l : List α} {p q : α → Bool}
    (h : l.countP q < l.countP p) : ∃ a ∈ l, p a = true ∧ q a = false := by
  induction l with
  | nil => simp [List.countP_nil] at h
  | cons b l ih =>
    by_cases hb : p b = true ∧ q b = false
    · exact ⟨b, List.mem_cons_self _ _, hb⟩
    · have hstep : l.countP q < l.countP p := by
        simp only [List.countP_cons] at h
        by_cases hpb : p b = true
        · have hqb : q b = true := by
            rcases Bool.eq_false_or_eq_true (q b) with h' | h'
            · exact h'
            · exact absurd ⟨hpb, h'⟩ hb
          simp only [hpb, hqb, if_true] at h
          omega
        · simp only [hpb, Bool.false_eq_true, if_false] at h
          by_cases hqb : q b = true <;> simp only [hqb, if_true, Bool.false_eq_true,
            if_false] at h <;> omega
      obtain ⟨a, ha, hpa⟩ := ih hstep
      exact ⟨a, List.mem_cons_of_mem _ ha, hpa⟩

/-- The Kahn loop preserves the invariant to the end: the emitted order is
duplicate-free, edge-respecting, drawn from the declared ids and edge
targets, and — when edge targets are declared and the fuel dominates the
number of undischarged ids — every unemitted declared id still has a
positive pending in-degree (an incoming edge from an unemitted node). -/
lemma kahnLoop_spec (edges : List (String × String)) (ids : List String) :
    ∀ (fuel : Nat) (queue result : List String) (indeg : String → Int),
      KahnInv edges ids queue result indeg →
      (kahnLoop edges fuel queue indeg result).Nodup ∧
      (∀ e ∈ edges, e.2 ∈ kahnLoop edges fuel queue indeg result →
        e.1 ∈ kahnLoop edges fuel queue indeg result ∧
        (kahnLoop edges fuel queue indeg result).indexOf e.1
          < (kahnLoop edges fuel queue indeg result).indexOf e.2) ∧
      (∀ v ∈ kahnLoop edges fuel queue indeg result, v ∈ ids ∨ v ∈ edges.map Prod.snd) ∧
      ((∀ e ∈ edges, e.2 ∈ ids) → ids.length + 1 ≤ fuel + result.length →
        ∀ v ∈ ids, v ∉ kahnLoop edges fuel queue indeg result →
          pendingDeg edges (kahnLoop edges fuel queue indeg result) v ≠ 0) := by
  intro fuel
  induction fuel with
  | zero =>
    intro queue result indeg hinv
    obtain ⟨hnd, hdeg, hzero, hunseen, hprec, hsrc⟩ := hinv
    simp only [kahnLoop]
    refine ⟨(List.nodup_append.mp hnd).1, hprec,
      fun v hv => hsrc v (List.mem_append_left _ hv), fun hE hfuel v hv hnv => ?_⟩
    have hsub : result ⊆ ids := by
      intro x hx
      rcases hsrc x (List.mem_append_left _ hx) with h | h
      · exact h
      · obtain ⟨e, he, rfl⟩ := List.mem_map.mp h
        exact hE e he
    have hlen : result.length ≤ ids.length :=
      (List.subperm_of_subset (List.nodup_append.mp hnd).1 hsub).length_le
    omega
  | succ n ih =>
    intro queue result indeg hinv
    match queue with
    | [] =>
      obtain ⟨hnd, hdeg, hzero, hunseen, hprec, hsrc⟩ := hinv
      simp only [kahnLoop]
      refine ⟨(List.nodup_append.mp hnd).1, hprec,
        fun v hv => hsrc v (List.mem_append_left _ hv), fun hE hfuel v hv hnv => ?_⟩
      have h1 := hunseen v hv (by simpa using hnv)
      rw [hdeg v] at h1
      exact h1
    | u :: rest =>
      have hstep := kahnInv_step edges ids u rest result indeg hinv
      have hres := ih (processAdj (adjOf edges u) indeg rest).2 (result ++ [u])
        (processAdj (adjOf edges u) indeg rest).1 hstep
      simp only [kahnLoop]
      refine ⟨hres.1, hres.2.1, hres.2.2.1, fun hE hfuel => hres.2.2.2 hE ?_⟩
      simp only [List.length_append, List.length_singleton]
      omega

lemma exists_pending_source {edges : List (String × String)} {result : List String}
    {v : String} (h : pendingDeg edges result v ≠ 0) :
    ∃ e ∈ edges, e.2 = v ∧ e.1 ∉ result := by
  have hge := pendingDeg_nonneg edges result v
  have hlt : edges.countP (fun e => decide (e.2 = v ∧ e.1 ∈ result))
      < edges.countP (fun e => decide (e.2 = v)) := by
    simp only [pendingDeg] at h hge
    omega
  obtain ⟨e, he, hp, hq⟩ := exists_of_countP_lt hlt
  simp only [decide_eq_true_eq] at hp
  rw [decide_eq_false_iff_not] at hq
  exact ⟨e, he, hp, fun hmem => hq ⟨hp, hmem⟩⟩

lemma cycle_of_predecessors {edges : List (String × String)} {R : List String}
    (hRne : R ≠ []) (hpred : ∀ v ∈ R, ∃ w ∈ R, (w, v) ∈ edges) :
    ∃ v n, 1 ≤ n ∧ EdgePath edges v v n := by
  classical
  have hch : ∀ v : String, ∃ w : String, v ∈ R → w ∈ R ∧ (w, v) ∈ edges := by
    intro v
    by_cases hv : v ∈ R
    · obtain ⟨w, hw, he⟩ := hpred v hv
      exact ⟨w, fun _ => ⟨hw, he⟩⟩
    · exact ⟨v, fun h => absurd h hv⟩
  choose f hf using hch
  obtain ⟨v0, hv0⟩ := List.exists_mem_of_ne_nil R hRne
  let g : Nat → String := fun n => Nat.rec v0 (fun _ ih => f ih) n
  have hg : ∀ n, g n ∈ R := by
    intro n
    induction n with
    | zero => exact hv0
    | succ m ihm => exact (hf (g m) ihm).1
  have hstep : ∀ n, (g (n + 1), g n) ∈ edges := fun n => (hf (g n) (hg n)).2
  have hpath : ∀ (d k : Nat), EdgePath edges (g (k + d)) (g k) d := by
    intro d
    induction d with
    | zero => intro k; exact EdgePath.refl _
    | succ m ihm =>
      intro k
      have h1 := EdgePath.step (hstep (k + m)) (ihm k)
      rwa [show k + (m + 1) = (k + m) + 1 by omega]
  have hmap : ∀ i ∈ Finset.range (R.length + 1), g i ∈ R.toFinset :=
    fun i _ => List.mem_toFinset.mpr (hg i)
  have hcard : R.toFinset.card < (Finset.range (R.length + 1)).card := by
    rw [Finset.card_range]
    exact lt_of_le_of_lt (List.toFinset_card_le R) (by omega)
  obtain ⟨i, _, j, _, hne, heq⟩ :=
    Finset.exists_ne_map_eq_of_card_lt_of_maps_to hcard hmap
  rcases Nat.lt_or_ge i j with hij | hij
  · refine ⟨g i, j - i, by omega, ?_⟩
    have h1 := hpath (j - i) i
    rw [show i + (j - i) = j by omega] at h1
    rwa [← heq] at h1
  · have hij' : j < i := by omega
    refine ⟨g j, i - j, by omega, ?_⟩
    have h1 := hpath (i - j) j
    rw [show j + (i - j) = i by omega] at h1
    rwa [heq] at h1

lemma path_indexOf_le {edges : List (String × String)} {final : List String}
    (hprec : ∀ e ∈ edges, e.2 ∈ final →
      e.1 ∈ final ∧ final.indexOf e.1 < final.indexOf e.2) :
    ∀ {n : Nat} {a b : String}, EdgePath edges a b n → b ∈ final →
      a ∈ final ∧ final.indexOf a + n ≤ final.indexOf b := by
  intro n a b hp
  induction hp with
  | refl u => exact fun hb => ⟨hb, by omega⟩
  | step he hp' ih =>
    intro hb
    obtain ⟨hm, hidx⟩ := ih hb
    have h2 := hprec _ he hm
    dsimp only at h2
    exact ⟨h2.1, by omega⟩

lemma get_topological_order_def (nodes : List Node) (edges : List (String × String)) :
    get_topological_order nodes edges =
      if (kahnLoop edges (kahn_fuel nodes edges) (seedQueue (nodes.map Node.id) edges)
            (initIndeg edges) []).length ≠ nodes.length
      then Except.error "无法生成拓扑排序，图中可能存在环"
      else Except.ok (kahnLoop edges (kahn_fuel nodes edges)
        (seedQueue (nodes.map Node.id) edges) (initIndeg edges) []) := rfl

/-- C3: over a graph with duplicate-free node ids whose edges reference
declared nodes, (a) when no directed cycle exists, `get_topological_order`
returns a permutation of the node ids in which every edge's source
precedes its target (the FIFO tie-breaking seeded in declaration order is
the embedded algorithm itself: `seedQueue` lists the zero-in-degree ids in
declaration order and `processAdj` appends at the back of the queue); and
(b) when a directed cycle exists it fails with the distinct
residual-cycle error instead of returning a partial order. -/
theorem C3_topological_order :
    ∀ (nodes : List Node) (edges : List (String × String)),
      (nodes.map Node.id).Nodup →
      (∀ e ∈ edges, e.1 ∈ nodes.map Node.id ∧ e.2 ∈ nodes.map Node.id) →
      ((¬ ∃ v n, 1 ≤ n ∧ EdgePath edges v v n) →
        ∃ order, get_topological_order nodes edges = Except.ok order ∧
          order.Perm (nodes.map Node.id) ∧
          ∀ e ∈ edges, order.indexOf e.1 < order.indexOf e.2) ∧
      ((∃ v n, 1 ≤ n ∧ EdgePath edges v v n) →
        get_topological_order nodes edges
          = Except.error "无法生成拓扑排序，图中可能存在环") := by
  intro nodes edges hnd hE
  obtain ⟨hfnd, hfprec, hfsrc, hfcomp⟩ :=
    kahnLoop_spec edges (nodes.map Node.id) (kahn_fuel nodes edges)
      (seedQueue (nodes.map Node.id) edges) [] (initIndeg edges)
      (kahnInv_init edges (nodes.map Node.id) hnd)
  have hfuel : (nodes.map Node.id).length + 1
      ≤ kahn_fuel nodes edges + ([] : List String).length := by
    simp only [kahn_fuel, List.length_map, List.length_nil]
    omega
  have hsub : kahnLoop edges (kahn_fuel nodes edges)
      (seedQueue (nodes.map Node.id) edges) (initIndeg edges) [] ⊆ nodes.map Node.id := by
    intro v hv
    rcases hfsrc v hv with h | h
    · exact h
    · obtain ⟨e, he, rfl⟩ := List.mem_map.mp h
      exact (hE e he).2
  constructor
  · intro hacyc
    have hall : ∀ v ∈ nodes.map Node.id, v ∈ kahnLoop edges (kahn_fuel nodes edges)
        (seedQueue (nodes.map Node.id) edges) (initIndeg edges) [] := by
      by_contra hnall
      push_neg at hnall
      obtain ⟨v0, hv0, hv0n⟩ := hnall
      have hRmem : ∀ v, v ∈ (nodes.map Node.id).filter
          (fun v => decide (v ∉ kahnLoop edges (kahn_fuel nodes edges)
            (seedQueue (nodes.map Node.id) edges) (initIndeg edges) [])) ↔
          v ∈ nodes.map Node.id ∧ v ∉ kahnLoop edges (kahn_fuel nodes edges)
            (seedQueue (nodes.map Node.id) edges) (initIndeg edges) [] := by
        intro v
        simp [List.mem_filter]
      have hRne : (nodes.map Node.id).filter
          (fun v => decide (v ∉ kahnLoop edges (kahn_fuel nodes edges)
            (seedQueue (nodes.map Node.id) edges) (initIndeg edges) [])) ≠ [] := by
        intro h
        have hmem := (hRmem v0).mpr ⟨hv0, hv0n⟩
        rw [h] at hmem
        cases hmem
      have hpred : ∀ v ∈ (nodes.map Node.id).filter
          (fun v => decide (v ∉ kahnLoop edges (kahn_fuel nodes edges)
            (seedQueue (nodes.map Node.id) edges) (initIndeg edges) [])),
          ∃ w ∈ (nodes.map Node.id).filter
            (fun v => decide (v ∉ kahnLoop edges (kahn_fuel nodes edges)
              (seedQueue (nodes.map Node.id) edges) (initIndeg edges) [])),
            (w, v) ∈ edges := by
        intro v hv
        obtain ⟨hvids, hvnf⟩ := (hRmem v).mp hv
        have hpend := hfcomp (fun e he => (hE e he).2) hfuel v hvids hvnf
        obtain ⟨e, he, h2, h1⟩ := exists_pending_source hpend
        refine ⟨e.1, (hRmem e.1).mpr ⟨(hE e he).1, h1⟩, ?_⟩
        obtain ⟨a, b⟩ := e
        dsimp only at h2
        rw [← h2]
        exact he
      exact hacyc (cycle_of_predecessors hRne hpred)
    have hperm : (kahnLoop edges (kahn_fuel nodes edges)
        (seedQueue (nodes.map Node.id) edges) (initIndeg edges) []).Perm
        (nodes.map Node.id) :=
      (List.subperm_of_subset hfnd hsub).antisymm
        (List.subperm_of_subset hnd fun v hv => hall v hv)
    have hlen : (kahnLoop edges (kahn_fuel nodes edges)
        (seedQueue (nodes.map Node.id) edges) (initIndeg edges) []).length
        = nodes.length := by
      rw [hperm.length_eq, List.length_map]
    refine ⟨_, ?_, hperm, fun e he => ?_⟩
    · rw [get_topological_order_def, if_neg (by omega)]
    · have he2 : e.2 ∈ kahnLoop edges (kahn_fuel nodes edges)
          (seedQueue (nodes.map Node.id) edges) (initIndeg edges) [] :=
        hall e.2 (hE e he).2
      exact (hfprec e he he2).2
  · rintro ⟨v, n, hn, hp⟩
    rw [get_topological_order_def]
    rw [if_pos ?_]
    intro hlen
    have hsubperm := List.subperm_of_subset hfnd hsub
    have hperm := hsubperm.perm_of_length_le (by rw [hlen, List.length_map])
    obtain ⟨x, hx⟩ : ∃ x, (v, x) ∈ edges := by
      cases hp with
      | refl => omega
      | step he _ => exact ⟨_, he⟩
    have hvids : v ∈ nodes.map Node.id := (hE _ hx).1
    have hvfin : v ∈ kahnLoop edges (kahn_fuel nodes edges)
        (seedQueue (nodes.map Node.id) edges) (initIndeg edges) [] :=
      hperm.mem_iff.mpr hvids
    have hcontra := (path_indexOf_le hfprec hp hvfin).2
    omega

/-- Witness for C3: the two-node chain a → b sorts to an edge-respecting
permutation, and adding the back-edge b → a makes the sort fail with the
residual-cycle error. -/
theorem C3_topological_order_witness :
    (∃ order, get_topological_order
        [{ id := "a", type := "NAVIGATE" }, { id := "b", type := "ACT" }]
        [("a", "b")] = Except.ok order ∧
      order.Perm (List.map Node.id
        [{ id := "a", type := "NAVIGATE" }, { id := "b", type := "ACT" }]) ∧
      ∀ e ∈ [("a", "b")], order.indexOf e.1 < order.indexOf e.2) ∧
    get_topological_order
        [{ id := "a", type := "NAVIGATE" }, { id := "b", type := "ACT" }]
        [("a", "b"), ("b", "a")]
      = Except.error "无法生成拓扑排序，图中可能存在环" := by
  constructor
  · have hzero : ∀ {s t : String}, EdgePath [("a", "b")] s t 0 → s = t := by
      intro s t h
      cases h
      rfl
    have hb : ∀ (m : Nat) (s t : String), EdgePath [("a", "b")] s t m → s = "b" →
        1 ≤ m → False := by
      intro m s t hp
      induction hp with
      | refl u => intro _ h; omega
      | step he hp' ih =>
        intro hs _
        subst hs
        have hx := List.mem_singleton.mp he
        rw [Prod.mk.injEq] at hx
        exact absurd hx.1 (by decide)
    have hacyc : ¬ ∃ v n, 1 ≤ n ∧ EdgePath [("a", "b")] v v n := by
      rintro ⟨v, n, hn, hp⟩
      cases hp with
      | refl u => omega
      | step he hp' =>
        have hx := List.mem_singleton.mp he
        rw [Prod.mk.injEq] at hx
        obtain ⟨rfl, rfl⟩ := hx
        rename_i m
        rcases Nat.eq_zero_or_pos m with rfl | hm
        · exact absurd (hzero hp') (by decide)
        · exact hb m "b" "a" hp' rfl hm
    exact (C3_topological_order
      [{ id := "a", type := "NAVIGATE" }, { id := "b", type := "ACT" }]
      [("a", "b")] (by decide) (by decide)).1 hacyc
  · exact (C3_topological_order
      [{ id := "a", type := "NAVIGATE" }, { id := "b", type := "ACT" }]
      [("a", "b"), ("b", "a")] (by decide) (by decide)).2
      ⟨"a", 2, by omega,
        @EdgePath.step [("a", "b"), ("b", "a")] "a" "b" "a" 1 (by simp)
          (@EdgePath.step [("a", "b"), ("b", "a")] "b" "a" "a" 0 (by simp)
            (EdgePath.refl "a"))⟩

/-! ### C5: the executor's fail-fast pass -/

lemma get_topological_order_nodup {nodes : List Node} {edges : List (String × String)}
    {order : List String} (hnd : (nodes.map Node.id).Nodup)
    (h : get_topological_order nodes edges = Except.ok order) : order.Nodup := by
  rw [get_topological_order_def] at h
  by_cases hc : (kahnLoop edges (kahn_fuel nodes edges)
      (seedQueue (nodes.map Node.id) edges) (initIndeg edges) []).length ≠ nodes.length
  · rw [if_pos hc] at h
    cases h
  · rw [if_neg hc] at h
    cases h
    exact (kahnLoop_spec edges (nodes.map Node.id) (kahn_fuel nodes edges)
      (seedQueue (nodes.map Node.id) edges) [] (initIndeg edges)
      (kahnInv_init edges (nodes.map Node.id) hnd)).1

lemma findNode_id {nodes : List Node} {u : String} {node : Node}
    (h : findNode nodes u = some node) : node.id = u := by
  have := List.find?_some h
  simpa using this

lemma execGo_spec (g : TaskGraph) (outcome : String → NodeOut) (max_steps : Nat) :
    ∀ (rest : List String) (ctx : ExecCtx),
      rest.Nodup →
      (∀ v ∈ rest, ctx.node_results v = none ∧ ctx.node_states v = NodeStatus.PENDING) →
      (∀ v, ctx.node_states v ≠ NodeStatus.FAILED) →
      ∀ {f : String}, (execGo g outcome max_steps rest ctx).1.failed_node = some f →
        (execGo g outcome max_steps rest ctx).1.success = false ∧
        (outcome f).ok = false ∧
        (execGo g outcome max_steps rest ctx).1.node_results f
          = some (recordOf (outcome f)) ∧
        (execGo g outcome max_steps rest ctx).1.error
          = some ((recordOf (outcome f)).reason.getD "未知错误") ∧
        (∀ v, (execGo g outcome max_steps rest ctx).2.node_states v
          = NodeStatus.FAILED → v = f) ∧
        ∃ k, ∃ hk : k < rest.length, rest.get ⟨k, hk⟩ = f ∧
          ∀ j (hj : j < rest.length), k < j →
            (execGo g outcome max_steps rest ctx).1.node_results (rest.get ⟨j, hj⟩)
              = none ∧
            (execGo g outcome max_steps rest ctx).2.node_states (rest.get ⟨j, hj⟩)
              = NodeStatus.PENDING := by
  intro rest
  induction rest with
  | nil =>
    intro ctx _ _ _ f hf
    simp [execGo, successResult] at hf
  | cons u rest' ih =>
    intro ctx hnd hfresh hnofail f hf
    simp only [execGo] at hf ⊢
    by_cases hbudget : max_steps ≤ ctx.step_count
    · rw [if_pos hbudget] at hf ⊢
      simp [errorResult] at hf
    · rw [if_neg hbudget] at hf ⊢
      cases hfind : findNode g.nodes u with
      | none =>
        rw [hfind] at hf
        dsimp only at hf ⊢
        have hres := ih ctx (List.nodup_cons.mp hnd).2
          (fun v hv => hfresh v (List.mem_cons_of_mem _ hv)) hnofail hf
        obtain ⟨h1, h2, h3, h4, h5, k, hk, hkf, hlater⟩ := hres
        refine ⟨h1, h2, h3, h4, h5, k + 1, by simpa using Nat.succ_lt_succ hk, ?_, ?_⟩
        · simpa using hkf
        · intro j hj hkj
          match j, hj with
          | j' + 1, hj =>
            have hj' : j' < rest'.length := by simpa using hj
            have := hlater j' hj' (by omega)
            simpa using this
      | some node =>
        rw [hfind] at hf
        dsimp only at hf ⊢
        have hid : node.id = u := findNode_id hfind
        by_cases hok : (outcome u).ok = true
        · rw [if_pos hok] at hf ⊢
          have hfresh' : ∀ v ∈ rest',
              (runNode outcome u ctx).node_results v = none ∧
              (runNode outcome u ctx).node_states v = NodeStatus.PENDING := by
            intro v hv
            have hne : v ≠ u := fun h =>
              (List.nodup_cons.mp hnd).1 (h ▸ hv)
            have hold := hfresh v (List.mem_cons_of_mem _ hv)
            simp only [runNode, Function.update_noteq hne]
            exact hold
          have hnofail' : ∀ v,
              (runNode outcome u ctx).node_states v ≠ NodeStatus.FAILED := by
            intro v
            by_cases hv : v = u
            · subst hv
              simp only [runNode, Function.update_same, hok, if_true]
              intro h
              cases h
            · simp only [runNode, Function.update_noteq hv]
              exact hnofail v
          have hres := ih { runNode outcome u ctx with
              step_count := (runNode outcome u ctx).step_count + 1 }
            (List.nodup_cons.mp hnd).2 hfresh' hnofail' hf
          obtain ⟨h1, h2, h3, h4, h5, k, hk, hkf, hlater⟩ := hres
          refine ⟨h1, h2, h3, h4, h5, k + 1, by simpa using Nat.succ_lt_succ hk, ?_, ?_⟩
          · simpa using hkf
          · intro j hj hkj
            match j, hj with
            | j' + 1, hj =>
              have hj' : j' < rest'.length := by simpa using hj
              have := hlater j' hj' (by omega)
              simpa using this
        · rw [if_neg hok] at hf ⊢
          have hok' : (outcome u).ok = false := by
            rcases Bool.eq_false_or_eq_true ((outcome u).ok) with h | h
            · exact absurd h hok
            · exact h
          have hfu : f = u := by
            simp only [failureResult, hid] at hf
            exact (Option.some.injEq _ _ ▸ hf).symm
          subst hfu
          have hrec : (runNode outcome f ctx).node_results f
              = some (recordOf (outcome f)) := by
            simp [runNode, Function.update_same]
          refine ⟨rfl, hok', ?_, ?_, ?_, 0, by simp, rfl, ?_⟩
          · simpa [failureResult] using hrec
          · simp only [failureResult, hid, hrec]
          · intro v hv
            simp only [runNode] at hv
            by_cases hvu : v = f
            · exact hvu
            · rw [Function.update_noteq hvu] at hv
              exact absurd hv (hnofail v)
          · intro j hj hkj
            match j, hj with
            | j' + 1, hj =>
              have hj' : j' < rest'.length := by simpa using hj
              have hmem : rest'.get ⟨j', hj'⟩ ∈ rest' := List.get_mem _ _ _
              have hne : rest'.get ⟨j', hj'⟩ ≠ f := fun h =>
                (List.nodup_cons.mp hnd).1 (h ▸ hmem)
              have hold := hfresh _ (List.mem_cons_of_mem _ hmem)
              simp only [List.get_eq_getElem] at hne hold
              constructor
              · simpa [failureResult, runNode, Function.update_noteq hne] using hold.1
              · simpa [runNode, Function.update_noteq hne] using hold.2

/-- Concrete fail-fast scenario: two nodes a -> b, node a fails. -/
def c5G : TaskGraph :=
  { nodes := [{ id := "a", type := "NAVIGATE" }, { id := "b", type := "ACT" }],
    edges := [("a", "b")] }

def c5Outcome : String → NodeOut := fun v =>
  if v = "a" then NodeOut.exc "元素未找到" else NodeOut.passed 1

/-- C5: the executor is fail-fast.  Whenever one `execute` pass reports a
failed node `f`, the pass returned a failure result: success is false,
`f`'s own outcome failed, the result record for `f` is the one
`_execute_node` wrote, the pass error is `f`'s recorded reason (default
"未知错误"), `f` is the only node ever marked FAILED, and `f` sits at some
position `k` of the topological order while every node after position `k`
in that order has no result record and is still PENDING — it was never
attempted. -/
theorem C5_fail_fast (g : TaskGraph) (outcome : String → NodeOut)
    (max_steps : Nat) (f : String)
    (hnd : (g.nodes.map Node.id).Nodup)
    (hf : (execute g outcome max_steps).1.failed_node = some f) :
    (execute g outcome max_steps).1.success = false ∧
    (outcome f).ok = false ∧
    (execute g outcome max_steps).1.node_results f = some (recordOf (outcome f)) ∧
    (execute g outcome max_steps).1.error
      = some ((recordOf (outcome f)).reason.getD "未知错误") ∧
    (∀ v, (execute g outcome max_steps).2.node_states v = NodeStatus.FAILED → v = f) ∧
    ∃ order, get_topological_order g.nodes g.edges = Except.ok order ∧
      ∃ k, ∃ hk : k < order.length, order.get ⟨k, hk⟩ = f ∧
        ∀ j (hj : j < order.length), k < j →
          (execute g outcome max_steps).1.node_results (order.get ⟨j, hj⟩) = none ∧
          (execute g outcome max_steps).2.node_states (order.get ⟨j, hj⟩)
            = NodeStatus.PENDING := by
  unfold execute at hf ⊢
  cases htopo : get_topological_order g.nodes g.edges with
  | error e =>
    rw [htopo] at hf
    simp [errorResult] at hf
  | ok order =>
    rw [htopo] at hf
    dsimp only at hf ⊢
    have hres := execGo_spec g outcome max_steps order {}
      (get_topological_order_nodup hnd htopo)
      (fun v _ => ⟨rfl, rfl⟩)
      (fun v h => by simp at h) hf
    obtain ⟨h1, h2, h3, h4, h5, k, hk, hkf, hlater⟩ := hres
    exact ⟨h1, h2, h3, h4, h5, order, rfl, k, hk, hkf, hlater⟩

theorem C5_fail_fast_witness :
    ((c5G.nodes.map Node.id).Nodup ∧
      (execute c5G c5Outcome 10).1.failed_node = some "a") ∧
    (execute c5G c5Outcome 10).1.success = false ∧
    (execute c5G c5Outcome 10).1.node_results "b" = none :=
  ⟨⟨by decide, by rfl⟩,
    (C5_fail_fast c5G c5Outcome 10 "a" (by decide) (by rfl)).1,
    by rfl⟩

end GWA
